import Mathlib

/-!
Verification of the auto-rigging and walk-cycle pipeline
(`characters/scripts/auto_animate.py`).

The pipeline's algorithmic core is embedded shallowly:

* geometry is exact rational arithmetic (`ℚ`); Python float literals such as
  `0.02`, `0.3` are embedded as the rationals they denote;
* Euclidean distance is represented by its square (`x ↦ x*x` summed over
  coordinates): the square root is strictly monotone on nonnegatives, so
  every comparison `dist < min_dist` in the source has the same truth value
  on squared distances and the chosen arg-min bone is unchanged;
* angles produced by `math.radians(d)` (= `d·π/180`) are represented by the
  rational coefficient `d/180` of `π`; the map `q ↦ q·π` is injective and
  odd, so equality and exact negation of keyframe values are preserved;
* Blender's vertex groups are per-vertex association lists
  `List (String × ℚ)` from bone/group name to weight; `VertexGroup.add`
  with mode REPLACE sets the weight of that one group on the vertex
  (inserting the membership when absent) and touches no other group.
-/

/-- A 3-D point/vector with exact rational coordinates. -/
structure Vec3 where
  x : ℚ
  y : ℚ
  z : ℚ
deriving DecidableEq, Repr

/-- Squared Euclidean distance between two points (`(a-b).length` squared). -/
def distSq (a b : Vec3) : ℚ :=
  (a.x - b.x) * (a.x - b.x) + (a.y - b.y) * (a.y - b.y) + (a.z - b.z) * (a.z - b.z)

/-- Whole-mesh bounds as computed by `get_mesh_bounds`:
min/max corners, center, size. -/
structure Bounds where
  bmin : Vec3
  bmax : Vec3
  center : Vec3
  size : Vec3
deriving DecidableEq, Repr

/-- Per-island bounds as computed inside `find_mesh_islands`: the mesh
bounds fields plus the cached box volume. -/
structure IslandBounds where
  bmin : Vec3
  bmax : Vec3
  center : Vec3
  size : Vec3
  volume : ℚ
deriving DecidableEq, Repr

/-- Source `classify_island(island_bounds, mesh_bounds)`: the priority cascade from
the source, translated clause by clause (thresholds are the rationals the
Python literals denote; denominators floored at 0.001 via `max`). -/
def classify_island (ib : IslandBounds) (mb : Bounds) : String :=
  let rel_x := (ib.center.x - mb.bmin.x) / max mb.size.x (1/1000)
  let rel_z := (ib.center.z - mb.bmin.z) / max mb.size.z (1/1000)
  let rel_volume := ib.volume / max (mb.size.x * mb.size.y * mb.size.z) (1/1000)
  if rel_volume > 3/10 then "body"
  else if rel_z > 8/10 then "head"
  else if rel_z < 3/10 then
    if rel_x < 4/10 then "leg_l"
    else if rel_x > 6/10 then "leg_r"
    else "leg"
  else if rel_x < 3/10 then "arm_l"
  else if rel_x > 7/10 then "arm_r"
  else "appendage"

/-- Modelled from the spec's words (section 4.2): relative X/Z position of
the island center mapped across the mesh extents with epsilon-floored
denominators, relative volume likewise, then the first-match-wins cascade
body / head / legs / arms / appendage.  Used only to compare against
`classify_island`. -/
def classifySpecCascade (ib : IslandBounds) (mb : Bounds) : String :=
  let rel_x := (ib.center.x - mb.bmin.x) / max mb.size.x (1/1000)
  let rel_z := (ib.center.z - mb.bmin.z) / max mb.size.z (1/1000)
  let rel_volume := ib.volume / max (mb.size.x * mb.size.y * mb.size.z) (1/1000)
  if rel_volume > 3/10 then "body"
  else if rel_z > 8/10 then "head"
  else if rel_z < 3/10 then
    if rel_x < 4/10 then "leg_l"
    else if rel_x > 6/10 then "leg_r"
    else "leg"
  else if rel_x < 3/10 then "arm_l"
  else if rel_x > 7/10 then "arm_r"
  else "appendage"

/-- C9: `classify_island` is a pure total function of the two bounds records
(every input is accepted and mapped through the documented priority
cascade), it coincides with the cascade read off the spec, and calling it
twice on identical bounds yields identical results. -/
theorem classify_island_pure_total_cascade (ib : IslandBounds) (mb : Bounds) :
    classify_island ib mb = classifySpecCascade ib mb ∧
    classify_island ib mb = classify_island ib mb :=
  ⟨rfl, rfl⟩

/-! ### CLI entry point (`main`, lines 512-524): script-argument extraction -/

/-- The script-argument extraction in `main`: Blender passes the whole
process argv; the script keeps only the slice after the first `"--"`
separator, and an argv without `"--"` yields no script arguments at all. -/
def script_args (argv : List String) : List String :=
  if "--" ∈ argv then argv.drop (argv.indexOf "--" + 1) else []

/-- Source `main`'s argument check: with fewer than 2 script arguments it prints
usage and exits with code 1 (`Except.error 1`); otherwise it proceeds with
(input_path, output_path). -/
def main_parse_args (argv : List String) : Except Nat (String × String) :=
  let args := script_args argv
  if args.length < 2 then Except.error 1
  else Except.ok (args.getD 0 "", args.getD 1 "")

theorem indexOf_sep_append (pre post : List String) (h : "--" ∉ pre) :
    (pre ++ "--" :: post).indexOf "--" = pre.length := by
  induction pre with
  | nil => simp [List.indexOf_cons_self]
  | cons a t ih =>
      have ha : a ≠ "--" := fun hEq => h (hEq ▸ List.mem_cons_self a t)
      have ht : "--" ∉ t := fun hm => h (List.mem_cons_of_mem a hm)
      simp [List.indexOf_cons_ne _ ha, ih ht]

theorem script_args_after_first_sep (pre post : List String) (h : "--" ∉ pre) :
    script_args (pre ++ "--" :: post) = post := by
  have hmem : "--" ∈ pre ++ "--" :: post :=
    List.mem_append_right pre (List.mem_cons_self _ _)
  have hidx := indexOf_sep_append pre post h
  have hdrop : (pre ++ "--" :: post).drop (pre.length + 1) = post := by
    rw [show pre ++ "--" :: post = (pre ++ ["--"]) ++ post by simp]
    rw [show pre.length + 1 = (pre ++ ["--"]).length by simp]
    exact List.drop_left _ _
  simp [script_args, hmem, hidx, hdrop]

/-- C10: if argv has no `"--"` separator, `main` sees zero script arguments
and always exits with usage / code 1, however many paths were passed; when
`"--"` is present, only the arguments after the first `"--"` are counted,
and fewer than 2 of them likewise gives usage / exit code 1. -/
theorem main_usage_exit_on_missing_args (argv pre post : List String)
    (hno : "--" ∉ argv) (hpre : "--" ∉ pre) (hpost : post.length < 2) :
    main_parse_args argv = Except.error 1 ∧
    script_args (pre ++ "--" :: post) = post ∧
    main_parse_args (pre ++ "--" :: post) = Except.error 1 := by
  refine ⟨?_, script_args_after_first_sep pre post hpre, ?_⟩
  · simp [main_parse_args, script_args, hno]
  · simp [main_parse_args, script_args_after_first_sep pre post hpre, hpost]

/-- C10 witness: `blender input.glb output.glb` (no `"--"`) exits with
code 1, and `blender -- input.glb` (one script argument) likewise. -/
theorem main_usage_exit_on_missing_args_witness :
    main_parse_args ["blender", "input.glb", "output.glb"] = Except.error 1 ∧
    script_args (["blender"] ++ "--" :: ["input.glb"]) = ["input.glb"] ∧
    main_parse_args (["blender"] ++ "--" :: ["input.glb"]) = Except.error 1 :=
  main_usage_exit_on_missing_args ["blender", "input.glb", "output.glb"]
    ["blender"] ["input.glb"] (by decide) (by decide) (by decide)

/-! ### Vertex weights (`clean_weights`, lines 302-339)

A vertex's weights are its Blender group entries, embedded as an
association list `List (String × ℚ)` from group (bone) name to weight;
Blender keeps at most one entry per group on a vertex, which enters the
theorems as a `Nodup` hypothesis on the keys. -/

/-- Weight of group `b` on a vertex (0 when the vertex is not in `b`). -/
def weightOf (gs : List (String × ℚ)) (b : String) : ℚ :=
  ((gs.find? (fun g => g.1 == b)).map Prod.snd).getD 0

/-- Source `sum(g.weight for g in vert.groups)`: total weight over all groups. -/
def totalWeight (gs : List (String × ℚ)) : ℚ :=
  (gs.map Prod.snd).sum

/-- The write-back loop of `clean_weights`: set the first entry whose group
matches `b` to weight `w`; a vertex not in group `b` is left unchanged
(the loop's `found` flag is never acted on). -/
def setFirstWeight (gs : List (String × ℚ)) (b : String) (w : ℚ) :
    List (String × ℚ) :=
  match gs with
  | [] => []
  | g :: rest => if g.1 = b then (g.1, w) :: rest else g :: setFirstWeight rest b w

/-- Descending-weight sort key used by `weights.sort(key=..., reverse=True)`. -/
def wge (a b : String × ℚ) : Prop := b.2 ≤ a.2

instance : DecidableRel wge := fun a b => inferInstanceAs (Decidable (b.2 ≤ a.2))

instance : IsTotal (String × ℚ) wge := ⟨fun a b => le_total b.2 a.2⟩

instance : IsTrans (String × ℚ) wge := ⟨fun _ _ _ hab hbc => le_trans hbc hab⟩

/-- Source `clean_weights` restricted to one vertex: keep entries with weight
strictly above the threshold, sort by descending weight (stable, like
Python's sort), truncate to `max_influences`, renormalize when the kept
total is positive, then zero every group entry and write the cleaned
weights back into the still-present entries. -/
def clean_vertex (weight_threshold : ℚ) (max_influences : Nat)
    (gs : List (String × ℚ)) : List (String × ℚ) :=
  let weights := gs.filter (fun g => weight_threshold < g.2)
  let sorted := List.insertionSort wge weights
  let kept := sorted.take max_influences
  let total := (kept.map Prod.snd).sum
  let normed := if 0 < total then kept.map (fun g => (g.1, g.2 / total)) else kept
  let cleared := gs.map (fun g => (g.1, (0 : ℚ)))
  normed.foldl (fun acc k => setFirstWeight acc k.1 k.2) cleared

theorem setFirstWeight_keys (gs : List (String × ℚ)) (b : String) (w : ℚ) :
    (setFirstWeight gs b w).map Prod.fst = gs.map Prod.fst := by
  induction gs with
  | nil => rfl
  | cons g rest ih => by_cases h : g.1 = b <;> simp [setFirstWeight, h, ih]

theorem weightOf_cons (g : String × ℚ) (rest : List (String × ℚ)) (b : String) :
    weightOf (g :: rest) b = if g.1 = b then g.2 else weightOf rest b := by
  by_cases h : g.1 = b <;> simp [weightOf, List.find?_cons, h]

theorem totalWeight_cons (g : String × ℚ) (rest : List (String × ℚ)) :
    totalWeight (g :: rest) = g.2 + totalWeight rest := by
  simp [totalWeight]

theorem totalWeight_setFirstWeight (gs : List (String × ℚ)) (b : String) (w : ℚ)
    (hb : b ∈ gs.map Prod.fst) :
    totalWeight (setFirstWeight gs b w) = totalWeight gs + w - weightOf gs b := by
  induction gs with
  | nil => simp at hb
  | cons g rest ih =>
      by_cases h : g.1 = b
      · simp [setFirstWeight, h, totalWeight_cons, weightOf_cons]
        ring
      · have hb' : b ∈ rest.map Prod.fst := by
          rw [List.map_cons] at hb
          rcases List.mem_cons.mp hb with h1 | h1
          · exact absurd h1.symm h
          · exact h1
        simp only [setFirstWeight, if_neg h, totalWeight_cons, weightOf_cons, ih hb', if_neg h]
        ring

theorem weightOf_setFirstWeight_ne (gs : List (String × ℚ)) (b : String) (w : ℚ)
    (c : String) (hc : c ≠ b) :
    weightOf (setFirstWeight gs b w) c = weightOf gs c := by
  induction gs with
  | nil => rfl
  | cons g rest ih =>
      by_cases h : g.1 = b
      · have hgc : g.1 ≠ c := fun hEq => hc (hEq ▸ h)
        have hbc : ¬ (b = c) := fun hEq => hc hEq.symm
        simp [setFirstWeight, h, weightOf_cons, hgc, hbc]
      · simp [setFirstWeight, h, weightOf_cons, ih]

theorem weightOf_foldl_not_mem (ks : List (String × ℚ)) (acc : List (String × ℚ))
    (c : String) (hc : c ∉ ks.map Prod.fst) :
    weightOf (ks.foldl (fun a k => setFirstWeight a k.1 k.2) acc) c = weightOf acc c := by
  induction ks generalizing acc with
  | nil => rfl
  | cons k rest ih =>
      have hc1 : c ≠ k.1 := by
        intro hEq
        exact hc (by simp [hEq])
      have hc2 : c ∉ rest.map Prod.fst := fun hm => hc (by simp [hm])
      rw [List.foldl_cons, ih _ hc2, weightOf_setFirstWeight_ne _ _ _ _ hc1]

theorem totalWeight_foldl_setFirstWeight (ks : List (String × ℚ))
    (acc : List (String × ℚ)) (hnd : (ks.map Prod.fst).Nodup)
    (hsub : ∀ k ∈ ks, k.1 ∈ acc.map Prod.fst)
    (hzero : ∀ k ∈ ks, weightOf acc k.1 = 0) :
    totalWeight (ks.foldl (fun a k => setFirstWeight a k.1 k.2) acc)
      = totalWeight acc + totalWeight ks := by
  induction ks generalizing acc with
  | nil => simp [totalWeight]
  | cons k rest ih =>
      have hk : k ∈ k :: rest := List.mem_cons_self _ _
      have hkeys : (setFirstWeight acc k.1 k.2).map Prod.fst = acc.map Prod.fst :=
        setFirstWeight_keys acc k.1 k.2
      have hnd' : (rest.map Prod.fst).Nodup := (List.nodup_cons.mp (by simpa using hnd)).2
      have hknotin : k.1 ∉ rest.map Prod.fst := (List.nodup_cons.mp (by simpa using hnd)).1
      have h1 : totalWeight (setFirstWeight acc k.1 k.2) = totalWeight acc + k.2 := by
        rw [totalWeight_setFirstWeight _ _ _ (hsub k hk), hzero k hk]
        ring
      have ihh := ih (setFirstWeight acc k.1 k.2) hnd'
        (fun k' hk' => hkeys ▸ hsub k' (List.mem_cons_of_mem _ hk'))
        (fun k' hk' => by
          have hne : k'.1 ≠ k.1 := by
            intro hEq
            exact hknotin (hEq ▸ List.mem_map_of_mem Prod.fst hk')
          rw [weightOf_setFirstWeight_ne _ _ _ _ hne]
          exact hzero k' (List.mem_cons_of_mem _ hk'))
      rw [List.foldl_cons, ihh, h1, totalWeight_cons]
      ring

theorem weightOf_cleared (gs : List (String × ℚ)) (b : String) :
    weightOf (gs.map (fun g => (g.1, (0 : ℚ)))) b = 0 := by
  induction gs with
  | nil => rfl
  | cons g rest ih =>
      by_cases h : g.1 = b <;> simp [weightOf_cons, h, ih]

theorem totalWeight_cleared (gs : List (String × ℚ)) :
    totalWeight (gs.map (fun g => (g.1, (0 : ℚ)))) = 0 := by
  induction gs with
  | nil => rfl
  | cons g rest ih => simp [totalWeight_cons, ih]

theorem totalWeight_map_div (l : List (String × ℚ)) (t : ℚ) :
    totalWeight (l.map (fun g => (g.1, g.2 / t))) = totalWeight l / t := by
  induction l with
  | nil => simp [totalWeight]
  | cons g rest ih => simp [totalWeight_cons, ih, add_div]

theorem totalWeight_pos (l : List (String × ℚ)) (hne : l ≠ [])
    (hpos : ∀ g ∈ l, 0 < g.2) : 0 < totalWeight l := by
  induction l with
  | nil => exact absurd rfl hne
  | cons g rest ih =>
      rw [totalWeight_cons]
      have h1 := hpos g (List.mem_cons_self _ _)
      cases rest with
      | nil => simpa [totalWeight] using h1
      | cons a t =>
          have h2 := ih (by simp) (fun g' hg' => hpos g' (List.mem_cons_of_mem _ hg'))
          linarith

theorem posCount_setFirstWeight (gs : List (String × ℚ)) (b : String) (w : ℚ) :
    ((setFirstWeight gs b w).filter (fun g => (0:ℚ) < g.2)).length ≤
      (gs.filter (fun g => (0:ℚ) < g.2)).length + 1 := by
  induction gs with
  | nil => simp [setFirstWeight]
  | cons g rest ih =>
      by_cases h : g.1 = b
      · simp only [setFirstWeight, if_pos h]
        by_cases hw : (0:ℚ) < w
        · by_cases hg : (0:ℚ) < g.2
          · simp [List.filter_cons, hw, hg]
          · simp [List.filter_cons, hw, hg]
        · by_cases hg : (0:ℚ) < g.2
          · simp [List.filter_cons, hw, hg]
            omega
          · simp [List.filter_cons, hw, hg]
      · simp only [setFirstWeight, if_neg h]
        by_cases hg : (0:ℚ) < g.2
        · simp [List.filter_cons, hg]
          omega
        · simp [List.filter_cons, hg]
          omega

theorem posCount_foldl_setFirstWeight (ks acc : List (String × ℚ)) :
    ((ks.foldl (fun a k => setFirstWeight a k.1 k.2) acc).filter
        (fun g => (0:ℚ) < g.2)).length ≤
      (acc.filter (fun g => (0:ℚ) < g.2)).length + ks.length := by
  induction ks generalizing acc with
  | nil => simp
  | cons k rest ih =>
      calc ((( k :: rest).foldl (fun a k => setFirstWeight a k.1 k.2) acc).filter
              (fun g => (0:ℚ) < g.2)).length
          ≤ ((setFirstWeight acc k.1 k.2).filter (fun g => (0:ℚ) < g.2)).length
              + rest.length := by
            rw [List.foldl_cons]
            exact ih _
        _ ≤ (acc.filter (fun g => (0:ℚ) < g.2)).length + 1 + rest.length :=
            Nat.add_le_add_right (posCount_setFirstWeight acc k.1 k.2) _
        _ = (acc.filter (fun g => (0:ℚ) < g.2)).length + (k :: rest).length := by
            simp
            omega

theorem nonneg_setFirstWeight (gs : List (String × ℚ)) (b : String) (w : ℚ)
    (hgs : ∀ g ∈ gs, 0 ≤ g.2) (hw : 0 ≤ w) :
    ∀ g ∈ setFirstWeight gs b w, 0 ≤ g.2 := by
  induction gs with
  | nil => simp [setFirstWeight]
  | cons g rest ih =>
      intro g' hg'
      by_cases h : g.1 = b
      · simp only [setFirstWeight, if_pos h] at hg'
        rcases List.mem_cons.mp hg' with h1 | h1
        · subst h1
          exact hw
        · exact hgs g' (List.mem_cons_of_mem _ h1)
      · simp only [setFirstWeight, if_neg h] at hg'
        rcases List.mem_cons.mp hg' with h1 | h1
        · subst h1
          exact hgs g' (List.mem_cons_self _ _)
        · exact ih (fun g'' hg'' => hgs g'' (List.mem_cons_of_mem _ hg'')) g' h1

theorem nonneg_foldl_setFirstWeight (ks acc : List (String × ℚ))
    (hacc : ∀ g ∈ acc, 0 ≤ g.2) (hks : ∀ k ∈ ks, 0 ≤ k.2) :
    ∀ g ∈ ks.foldl (fun a k => setFirstWeight a k.1 k.2) acc, 0 ≤ g.2 := by
  induction ks generalizing acc with
  | nil => exact hacc
  | cons k rest ih =>
      rw [List.foldl_cons]
      exact ih _
        (nonneg_setFirstWeight acc k.1 k.2 hacc (hks k (List.mem_cons_self _ _)))
        (fun k' hk' => hks k' (List.mem_cons_of_mem _ hk'))

theorem weightOf_of_mem_nodup (gs : List (String × ℚ))
    (hnd : (gs.map Prod.fst).Nodup) (g : String × ℚ) (hg : g ∈ gs) :
    weightOf gs g.1 = g.2 := by
  induction gs with
  | nil => simp at hg
  | cons a rest ih =>
      rw [List.map_cons, List.nodup_cons] at hnd
      rcases List.mem_cons.mp hg with h1 | h1
      · subst h1
        simp [weightOf_cons]
      · have ha : a.1 ≠ g.1 := by
          intro hEq
          exact hnd.1 (hEq ▸ List.mem_map_of_mem Prod.fst h1)
        rw [weightOf_cons, if_neg ha]
        exact ih hnd.2 h1

theorem keys_cleared (gs : List (String × ℚ)) :
    (gs.map (fun g => (g.1, (0 : ℚ)))).map Prod.fst = gs.map Prod.fst := by
  induction gs with
  | nil => rfl
  | cons g rest ih => simp [ih]

theorem posFilter_cleared (gs : List (String × ℚ)) :
    (gs.map (fun g => (g.1, (0 : ℚ)))).filter (fun g => (0:ℚ) < g.2) = [] := by
  induction gs with
  | nil => rfl
  | cons g rest ih => simp [List.filter_cons, ih]

theorem keys_foldl_setFirstWeight (ks acc : List (String × ℚ)) :
    (ks.foldl (fun a k => setFirstWeight a k.1 k.2) acc).map Prod.fst
      = acc.map Prod.fst := by
  induction ks generalizing acc with
  | nil => rfl
  | cons k rest ih => rw [List.foldl_cons, ih, setFirstWeight_keys]

/-- C3 counterexample: a vertex with five groups each of weight 0.2 (all
above the 0.05 threshold).  `clean_weights` keeps the top 4 and normalizes
them to 0.25, but the fifth group entry is not removed — it stays with
weight 0 — so the vertex ends with 5 entries, more than K = 4, and one
entry's weight is not strictly positive, contradicting the claim. -/
theorem clean_weights_five_groups_counterexample :
    clean_vertex (5/100) 4
        [("a", 1/5), ("b", 1/5), ("c", 1/5), ("d", 1/5), ("e", 1/5)] =
      [("a", 1/4), ("b", 1/4), ("c", 1/4), ("d", 1/4), ("e", 0)] ∧
    ¬ ((clean_vertex (5/100) 4
        [("a", 1/5), ("b", 1/5), ("c", 1/5), ("d", 1/5), ("e", 1/5)]).length ≤ 4) ∧
    ¬ (∀ g ∈ clean_vertex (5/100) 4
        [("a", 1/5), ("b", 1/5), ("c", 1/5), ("d", 1/5), ("e", 1/5)], 0 < g.2) := by
  have h : clean_vertex (5/100) 4
      [("a", 1/5), ("b", 1/5), ("c", 1/5), ("d", 1/5), ("e", 1/5)] =
      [("a", 1/4), ("b", 1/4), ("c", 1/4), ("d", 1/4), ("e", 0)] := by
    norm_num [clean_vertex, List.insertionSort, List.orderedInsert, wge,
      setFirstWeight, List.filter]
    simp
  refine ⟨h, ?_, ?_⟩
  · rw [h]
    norm_num
  · rw [h]
    intro hall
    have := hall ("e", 0) (by simp)
    norm_num at this

/-- C3 (amended): for a vertex with distinct group entries of which at
least one weight is strictly above the 0.05 threshold, the cleanup pass
leaves at most K = 4 entries with strictly positive weight, all weights
nonnegative, the weights summing to exactly 1 (so within 1e-4 of 1.0),
every group whose original weight was at or below the threshold ends at
weight 0, the set of group memberships (keys) unchanged — zero-weight
entries are set to 0 but not removed — and the filtered entries are sorted
by descending weight before truncation. -/
theorem clean_weights_threshold_cap_normalize (gs : List (String × ℚ))
    (hnd : (gs.map Prod.fst).Nodup)
    (hex : ∃ g ∈ gs, (5/100 : ℚ) < g.2) :
    ((clean_vertex (5/100) 4 gs).filter (fun g => (0:ℚ) < g.2)).length ≤ 4 ∧
    totalWeight (clean_vertex (5/100) 4 gs) = 1 ∧
    (∀ g ∈ clean_vertex (5/100) 4 gs, 0 ≤ g.2) ∧
    (∀ b : String, weightOf gs b ≤ 5/100 →
      weightOf (clean_vertex (5/100) 4 gs) b = 0) ∧
    (clean_vertex (5/100) 4 gs).map Prod.fst = gs.map Prod.fst ∧
    List.Sorted wge
      (List.insertionSort wge (gs.filter (fun g => (5/100:ℚ) < g.2))) := by
  have hperm := List.perm_insertionSort wge (gs.filter (fun g => (5/100:ℚ) < g.2))
  have hkept_sub : ∀ g ∈ (List.insertionSort wge
      (gs.filter (fun g => (5/100:ℚ) < g.2))).take 4,
      g ∈ gs ∧ (5/100:ℚ) < g.2 := by
    intro g hg
    have h1 : g ∈ gs.filter (fun g => (5/100:ℚ) < g.2) :=
      hperm.subset (List.take_subset _ _ hg)
    have h2 := List.mem_filter.mp h1
    exact ⟨h2.1, by simpa using h2.2⟩
  have hkpos : ∀ g ∈ (List.insertionSort wge
      (gs.filter (fun g => (5/100:ℚ) < g.2))).take 4, 0 < g.2 := by
    intro g hg
    have := (hkept_sub g hg).2
    linarith
  have hWne : gs.filter (fun g => (5/100:ℚ) < g.2) ≠ [] := by
    rcases hex with ⟨g, hg, hgt⟩
    exact List.ne_nil_of_mem (List.mem_filter.mpr ⟨hg, by simpa using hgt⟩)
  have hKne : (List.insertionSort wge
      (gs.filter (fun g => (5/100:ℚ) < g.2))).take 4 ≠ [] := by
    have hlen : 0 < (gs.filter (fun g => (5/100:ℚ) < g.2)).length :=
      List.length_pos.mpr hWne
    have hlen2 : 0 < (List.insertionSort wge
        (gs.filter (fun g => (5/100:ℚ) < g.2))).length := by
      rwa [hperm.length_eq]
    apply List.ne_nil_of_length_pos
    rw [List.length_take]
    omega
  have hTpos : 0 < ((((List.insertionSort wge
      (gs.filter (fun g => (5/100:ℚ) < g.2))).take 4)).map Prod.snd).sum :=
    totalWeight_pos _ hKne hkpos
  have hcv : clean_vertex (5/100) 4 gs =
      (((List.insertionSort wge (gs.filter (fun g => (5/100:ℚ) < g.2))).take 4).map
        (fun g => (g.1, g.2 / ((((List.insertionSort wge
          (gs.filter (fun g => (5/100:ℚ) < g.2))).take 4)).map Prod.snd).sum))).foldl
        (fun a k => setFirstWeight a k.1 k.2)
        (gs.map (fun g => (g.1, (0:ℚ)))) := by
    simp only [clean_vertex]
    rw [if_pos hTpos]
  have hWnd : ((gs.filter (fun g => (5/100:ℚ) < g.2)).map Prod.fst).Nodup :=
    ((List.filter_sublist gs).map Prod.fst).nodup hnd
  have hSnd : ((List.insertionSort wge
      (gs.filter (fun g => (5/100:ℚ) < g.2))).map Prod.fst).Nodup :=
    ((hperm.map Prod.fst).nodup_iff).mpr hWnd
  have hKnd : (((List.insertionSort wge
      (gs.filter (fun g => (5/100:ℚ) < g.2))).take 4).map Prod.fst).Nodup :=
    ((List.take_sublist 4 _).map Prod.fst).nodup hSnd
  have hNkeys : ((((List.insertionSort wge
      (gs.filter (fun g => (5/100:ℚ) < g.2))).take 4).map
        (fun g => (g.1, g.2 / ((((List.insertionSort wge
          (gs.filter (fun g => (5/100:ℚ) < g.2))).take 4)).map Prod.snd).sum))).map
        Prod.fst)
      = ((List.insertionSort wge
          (gs.filter (fun g => (5/100:ℚ) < g.2))).take 4).map Prod.fst := by
    rw [List.map_map]
    rfl
  refine ⟨?_, ?_, ?_, ?_, ?_, List.sorted_insertionSort wge _⟩
  · rw [hcv]
    have h1 := posCount_foldl_setFirstWeight
      (((List.insertionSort wge (gs.filter (fun g => (5/100:ℚ) < g.2))).take 4).map
        (fun g => (g.1, g.2 / ((((List.insertionSort wge
          (gs.filter (fun g => (5/100:ℚ) < g.2))).take 4)).map Prod.snd).sum)))
      (gs.map (fun g => (g.1, (0:ℚ))))
    rw [posFilter_cleared] at h1
    refine le_trans h1 ?_
    simp only [List.length_nil, Nat.zero_add, List.length_map, List.length_take]
    exact min_le_left _ _
  · rw [hcv, totalWeight_foldl_setFirstWeight _ _ (hNkeys.symm ▸ hKnd)
      (fun k hk => ?_) (fun k _ => weightOf_cleared gs k.1)]
    · rw [totalWeight_cleared, totalWeight_map_div]
      have heq : totalWeight ((List.insertionSort wge
          (gs.filter (fun g => (5/100:ℚ) < g.2))).take 4)
          = ((((List.insertionSort wge
            (gs.filter (fun g => (5/100:ℚ) < g.2))).take 4)).map Prod.snd).sum := rfl
      rw [heq, div_self (ne_of_gt hTpos)]
      ring
    · rcases List.mem_map.mp hk with ⟨g, hg, rfl⟩
      rw [keys_cleared]
      have hmem : g.1 ∈ gs.map Prod.fst :=
        List.mem_map.mpr ⟨g, (hkept_sub g hg).1, rfl⟩
      exact hmem
  · rw [hcv]
    apply nonneg_foldl_setFirstWeight
    · intro g hg
      rcases List.mem_map.mp hg with ⟨g', _, rfl⟩
      exact le_refl 0
    · intro k hk
      rcases List.mem_map.mp hk with ⟨g, hg, rfl⟩
      exact div_nonneg (le_of_lt (hkpos g hg)) (le_of_lt hTpos)
  · intro b hb
    rw [hcv]
    have hbn : b ∉ (((List.insertionSort wge
        (gs.filter (fun g => (5/100:ℚ) < g.2))).take 4).map
        (fun g => (g.1, g.2 / ((((List.insertionSort wge
          (gs.filter (fun g => (5/100:ℚ) < g.2))).take 4)).map Prod.snd).sum))).map
        Prod.fst := by
      rw [hNkeys]
      intro hmem
      rcases List.mem_map.mp hmem with ⟨g, hg, hge⟩
      have h1 := hkept_sub g hg
      have h2 : weightOf gs g.1 = g.2 := weightOf_of_mem_nodup gs hnd g h1.1
      rw [hge] at h2
      rw [h2] at hb
      linarith [h1.2]
    rw [weightOf_foldl_not_mem _ _ _ hbn, weightOf_cleared]
  · rw [hcv, keys_foldl_setFirstWeight, keys_cleared]

/-- C3 witness: the spec's own scenario — raw weights
boneA 0.5, boneB 0.3, boneC 0.04 with threshold 0.05 — satisfies the
amended cleanup invariants. -/
theorem clean_weights_threshold_cap_normalize_witness :
    ((clean_vertex (5/100) 4
        [("boneA", 1/2), ("boneB", 3/10), ("boneC", 1/25)]).filter
        (fun g => (0:ℚ) < g.2)).length ≤ 4 ∧
    totalWeight (clean_vertex (5/100) 4
        [("boneA", 1/2), ("boneB", 3/10), ("boneC", 1/25)]) = 1 ∧
    (∀ g ∈ clean_vertex (5/100) 4
        [("boneA", 1/2), ("boneB", 3/10), ("boneC", 1/25)], 0 ≤ g.2) ∧
    (∀ b : String, weightOf [("boneA", 1/2), ("boneB", 3/10), ("boneC", 1/25)] b
        ≤ 5/100 →
      weightOf (clean_vertex (5/100) 4
        [("boneA", 1/2), ("boneB", 3/10), ("boneC", 1/25)]) b = 0) ∧
    (clean_vertex (5/100) 4
        [("boneA", 1/2), ("boneB", 3/10), ("boneC", 1/25)]).map Prod.fst
      = [("boneA", (1:ℚ)/2), ("boneB", 3/10), ("boneC", 1/25)].map Prod.fst ∧
    List.Sorted wge (List.insertionSort wge
      ([("boneA", (1:ℚ)/2), ("boneB", 3/10), ("boneC", 1/25)].filter
        (fun g => (5/100:ℚ) < g.2))) :=
  clean_weights_threshold_cap_normalize
    [("boneA", 1/2), ("boneB", 3/10), ("boneC", 1/25)]
    (by decide) ⟨("boneA", 1/2), by simp, by norm_num⟩

/-! ### Nearest-bone lookup and island weight reassignment
(`get_bone_positions` lines 262-273, `find_nearest_bone` lines 276-290,
`assign_island_weights` lines 342-371, `ensure_all_vertices_weighted`
lines 374-392) -/

/-- Bone position record cached by `get_bone_positions`: world-space head,
tail, and their midpoint (`center`). -/
structure BonePos where
  head : Vec3
  tail : Vec3
  center : Vec3
deriving DecidableEq, Repr

/-- Source `get_bone_positions`: for every bone (name, head, tail) cache
`center = (head + tail) / 2`. -/
def get_bone_positions (bones : List (String × Vec3 × Vec3)) :
    List (String × BonePos) :=
  bones.map (fun b => (b.1, ⟨b.2.1, b.2.2,
    ⟨(b.2.1.x + b.2.2.x) / 2, (b.2.1.y + b.2.2.y) / 2, (b.2.1.z + b.2.2.z) / 2⟩⟩))

/-- Python's `if allowed_bones and bone_name not in allowed_bones: continue`:
a `None` (or empty, hence falsy) allowed list disables the filter. -/
def skipsBone (allowed : Option (List String)) (name : String) : Bool :=
  match allowed with
  | none => false
  | some l => !l.isEmpty && !(l.contains name)

/-- The scan loop of `find_nearest_bone`: running (nearest, min_dist)
accumulator, starting from `None`/infinity; a strict `<` comparison keeps
the earliest bone on ties.  Distances are squared (monotone transform). -/
def find_nearest_bone_go (position : Vec3) (allowed : Option (List String)) :
    List (String × BonePos) → Option (String × ℚ) → Option (String × ℚ)
  | [], best => best
  | bp :: rest, best =>
      if skipsBone allowed bp.1 then
        find_nearest_bone_go position allowed rest best
      else
        match best with
        | none =>
            find_nearest_bone_go position allowed rest
              (some (bp.1, distSq position bp.2.center))
        | some (bn, bd) =>
            if distSq position bp.2.center < bd then
              find_nearest_bone_go position allowed rest
                (some (bp.1, distSq position bp.2.center))
            else
              find_nearest_bone_go position allowed rest (some (bn, bd))

/-- Source `find_nearest_bone(position, bone_positions, allowed_bones)`: name of
the bone whose center is nearest to `position`; `none` when the bone set
is empty (or every bone filtered out) — no exception is raised. -/
def find_nearest_bone (position : Vec3)
    (bone_positions : List (String × BonePos))
    (allowed_bones : Option (List String)) : Option String :=
  (find_nearest_bone_go position allowed_bones bone_positions none).map Prod.fst

/-- Blender `VertexGroup.add([idx], w, 'REPLACE')` on one vertex's entry list: set
this vertex's weight in group `b` (inserting the membership when absent);
entries of every other group are untouched. -/
def setWeight (gs : List (String × ℚ)) (b : String) (w : ℚ) :
    List (String × ℚ) :=
  match gs with
  | [] => [(b, w)]
  | g :: rest => if g.1 = b then (g.1, w) :: rest else g :: setWeight rest b w

/-- One iteration of the `assign_island_weights` loop: skip the island when
its vertex count exceeds 2% of the total; otherwise find the nearest bone
to the island center, silently skip when there is none or when it has no
vertex group, else set weight 1.0 on that group for every island vertex. -/
def processIsland (total_verts : Nat) (bone_positions : List (String × BonePos))
    (vertex_groups : List String) (w : Nat → List (String × ℚ))
    (isl : Finset Nat × IslandBounds) : Nat → List (String × ℚ) :=
  if (isl.1.card : ℚ) > (total_verts : ℚ) * (2/100) then w
  else
    match find_nearest_bone isl.2.center bone_positions none with
    | none => w
    | some target =>
        if target ∈ vertex_groups then
          fun v => if v ∈ isl.1 then setWeight (w v) target 1 else w v
        else w

/-- Source `assign_island_weights(mesh, armature, islands, bounds)`: fold the
island loop over the island list, with bone positions cached from the
armature's bones. -/
def assign_island_weights (w : Nat → List (String × ℚ))
    (bones : List (String × Vec3 × Vec3)) (vertex_groups : List String)
    (islands : List (Finset Nat × IslandBounds)) (total_verts : Nat) :
    Nat → List (String × ℚ) :=
  islands.foldl (processIsland total_verts (get_bone_positions bones) vertex_groups) w

/-- Source `ensure_all_vertices_weighted(mesh, armature)`: for every vertex whose
total weight is below 0.01, set weight 1.0 on the nearest bone's group —
silently skipping the vertex when the lookup returns `None` or the bone
has no vertex group.  NOTE: this function is defined in the source
(lines 374-392) but `main` (lines 512-570) never calls it. -/
def ensure_all_vertices_weighted (w : Nat → List (String × ℚ))
    (bones : List (String × Vec3 × Vec3)) (vertex_groups : List String)
    (pos : Nat → Vec3) : Nat → List (String × ℚ) :=
  fun v =>
    if totalWeight (w v) < 1/100 then
      match find_nearest_bone (pos v) (get_bone_positions bones) none with
      | none => w v
      | some nb => if nb ∈ vertex_groups then setWeight (w v) nb 1 else w v
    else w v

/-- The weight-processing stage `main` actually executes (lines 551-561):
`assign_island_weights`, then `clean_weights`; smoothing is delegated to an
external host operator (excluded collaborator) which on a vertex with no
neighbors leaves weights unchanged, and `ensure_all_vertices_weighted` is
never invoked. -/
def main_weight_stage (w : Nat → List (String × ℚ))
    (bones : List (String × Vec3 × Vec3)) (vertex_groups : List String)
    (islands : List (Finset Nat × IslandBounds)) (total_verts : Nat) :
    Nat → List (String × ℚ) :=
  fun v => clean_vertex (5/100) 4
    (assign_island_weights w bones vertex_groups islands total_verts v)

theorem weightOf_setWeight_self (gs : List (String × ℚ)) (b : String) (w : ℚ) :
    weightOf (setWeight gs b w) b = w := by
  induction gs with
  | nil => simp [setWeight, weightOf_cons]
  | cons g rest ih =>
      by_cases h : g.1 = b
      · simp [setWeight, h, weightOf_cons]
      · simp [setWeight, h, weightOf_cons, ih]

theorem weightOf_setWeight_ne (gs : List (String × ℚ)) (b : String) (w : ℚ)
    (c : String) (hc : c ≠ b) :
    weightOf (setWeight gs b w) c = weightOf gs c := by
  induction gs with
  | nil =>
      have hbc : ¬ (b = c) := fun hEq => hc hEq.symm
      simp [setWeight, weightOf_cons, hbc, weightOf]
  | cons g rest ih =>
      by_cases h : g.1 = b
      · have hgc : ¬ (g.1 = c) := fun hEq => hc (hEq ▸ h)
        have hbc : ¬ (b = c) := fun hEq => hc hEq.symm
        simp [setWeight, h, weightOf_cons, hgc, hbc]
      · simp [setWeight, h, weightOf_cons, ih]

theorem processIsland_not_mem (total : Nat) (bps : List (String × BonePos))
    (vg : List String) (w : Nat → List (String × ℚ))
    (isl : Finset Nat × IslandBounds) (v : Nat) (hv : v ∉ isl.1) :
    processIsland total bps vg w isl v = w v := by
  unfold processIsland
  split_ifs with h1
  · rfl
  · rcases hf : find_nearest_bone isl.2.center bps none with _ | t
    · simp [hf]
    · by_cases h2 : t ∈ vg <;> simp [hf, h2, hv]

theorem processIsland_congr_at (total : Nat) (bps : List (String × BonePos))
    (vg : List String) (w₁ w₂ : Nat → List (String × ℚ))
    (isl : Finset Nat × IslandBounds) (v : Nat) (h : w₁ v = w₂ v) :
    processIsland total bps vg w₁ isl v = processIsland total bps vg w₂ isl v := by
  unfold processIsland
  split_ifs with h1
  · exact h
  · rcases hf : find_nearest_bone isl.2.center bps none with _ | t
    · simp [hf, h]
    · by_cases h2 : t ∈ vg
      · by_cases hv : v ∈ isl.1 <;> simp [hf, h2, hv, h]
      · simp [hf, h2, h]

theorem foldl_processIsland_not_mem (islands : List (Finset Nat × IslandBounds))
    (total : Nat) (bps : List (String × BonePos)) (vg : List String)
    (w : Nat → List (String × ℚ)) (v : Nat)
    (h : ∀ i ∈ islands, v ∉ i.1) :
    islands.foldl (processIsland total bps vg) w v = w v := by
  induction islands generalizing w with
  | nil => rfl
  | cons i rest ih =>
      rw [List.foldl_cons, ih _ (fun j hj => h j (List.mem_cons_of_mem _ hj)),
        processIsland_not_mem _ _ _ _ _ _ (h i (List.mem_cons_self _ _))]

theorem foldl_processIsland_single (islands : List (Finset Nat × IslandBounds))
    (total : Nat) (bps : List (String × BonePos)) (vg : List String)
    (w : Nat → List (String × ℚ)) (v : Nat) (isl : Finset Nat × IslandBounds)
    (huniq : islands.filter (fun i => v ∈ i.1) = [isl]) :
    islands.foldl (processIsland total bps vg) w v
      = processIsland total bps vg w isl v := by
  induction islands generalizing w with
  | nil => simp at huniq
  | cons i rest ih =>
      rw [List.foldl_cons]
      by_cases hv : v ∈ i.1
      · rw [List.filter_cons_of_pos (by simpa using hv)] at huniq
        have hcons := List.cons_eq_cons.mp huniq
        obtain ⟨hi, hrest⟩ := hcons
        subst hi
        have hnone : ∀ j ∈ rest, v ∉ j.1 := by
          intro j hj hvj
          have hjm : j ∈ rest.filter (fun i => v ∈ i.1) :=
            List.mem_filter.mpr ⟨hj, by simpa using hvj⟩
          rw [hrest] at hjm
          simp at hjm
        exact foldl_processIsland_not_mem rest total bps vg _ v hnone
      · rw [List.filter_cons_of_neg (by simpa using hv)] at huniq
        rw [ih _ huniq]
        exact processIsland_congr_at total bps vg _ _ isl v
          (processIsland_not_mem total bps vg w i v hv)

/-- C2 counterexample: total 100 vertices; singleton island at the origin;
bones "spine" (far) and "hand.L" (near); vertex 0 initially carries weight
0.5 on "spine".  The pass sets group "hand.L" to 1.0 with REPLACE, which
does not touch the "spine" group: afterwards vertex 0 still carries weight
0.5 on "spine", not zero — contradicting "zero weight on every other
bone".  A 2-vertex island in a 100-vertex mesh (exactly the 2% threshold)
is also reassigned, not left unchanged. -/
theorem assign_island_weights_counterexample :
    assign_island_weights (fun _ => [("spine", 1/2)])
        [("spine", ⟨0,0,10⟩, ⟨0,0,10⟩), ("hand.L", ⟨0,0,1⟩, ⟨0,0,1⟩)]
        ["spine", "hand.L"]
        [({0}, ⟨⟨0,0,0⟩, ⟨0,0,0⟩, ⟨0,0,0⟩, ⟨0,0,0⟩, 0⟩)] 100 0
      = [("spine", 1/2), ("hand.L", 1)] ∧
    ¬ (weightOf (assign_island_weights (fun _ => [("spine", 1/2)])
        [("spine", ⟨0,0,10⟩, ⟨0,0,10⟩), ("hand.L", ⟨0,0,1⟩, ⟨0,0,1⟩)]
        ["spine", "hand.L"]
        [({0}, ⟨⟨0,0,0⟩, ⟨0,0,0⟩, ⟨0,0,0⟩, ⟨0,0,0⟩, 0⟩)] 100 0) "spine" = 0) ∧
    ¬ (assign_island_weights (fun _ => [("spine", 1/2)])
        [("spine", ⟨0,0,10⟩, ⟨0,0,10⟩), ("hand.L", ⟨0,0,1⟩, ⟨0,0,1⟩)]
        ["spine", "hand.L"]
        [({0, 1}, ⟨⟨0,0,0⟩, ⟨0,0,0⟩, ⟨0,0,0⟩, ⟨0,0,0⟩, 0⟩)] 100 0
      = [("spine", 1/2)]) := by
  have hs : ("spine" : String) ≠ "hand.L" := by decide
  have h1 : assign_island_weights (fun _ => [("spine", 1/2)])
      [("spine", ⟨0,0,10⟩, ⟨0,0,10⟩), ("hand.L", ⟨0,0,1⟩, ⟨0,0,1⟩)]
      ["spine", "hand.L"]
      [({0}, ⟨⟨0,0,0⟩, ⟨0,0,0⟩, ⟨0,0,0⟩, ⟨0,0,0⟩, 0⟩)] 100 0
      = [("spine", 1/2), ("hand.L", 1)] := by
    norm_num [assign_island_weights, processIsland, find_nearest_bone,
      find_nearest_bone_go, get_bone_positions, skipsBone, distSq, setWeight, hs]
  have h2 : assign_island_weights (fun _ => [("spine", 1/2)])
      [("spine", ⟨0,0,10⟩, ⟨0,0,10⟩), ("hand.L", ⟨0,0,1⟩, ⟨0,0,1⟩)]
      ["spine", "hand.L"]
      [({0, 1}, ⟨⟨0,0,0⟩, ⟨0,0,0⟩, ⟨0,0,0⟩, ⟨0,0,0⟩, 0⟩)] 100 0
      = [("spine", 1/2), ("hand.L", 1)] := by
    norm_num [assign_island_weights, processIsland, find_nearest_bone,
      find_nearest_bone_go, get_bone_positions, skipsBone, distSq, setWeight, hs]
  refine ⟨h1, ?_, ?_⟩
  · rw [h1]
    norm_num [weightOf_cons]
  · rw [h2]
    simp

/-- C2 (amended): for a vertex `v` lying in exactly one island `isl` of the
list: if the island's vertex count strictly exceeds 2% of the total it is
left unchanged; if it is at or below the threshold and the nearest bone to
the island center (squared-Euclidean distance to the bones' head/tail
midpoints) exists and owns a vertex group, then `v`'s weight in that
group becomes 1.0 while its weight on every other bone is untouched (not
zeroed); when the lookup fails or the group is missing the island is
silently skipped. -/
theorem assign_island_weights_small_island (w : Nat → List (String × ℚ))
    (bones : List (String × Vec3 × Vec3)) (vg : List String)
    (islands : List (Finset Nat × IslandBounds)) (total : Nat) (v : Nat)
    (isl : Finset Nat × IslandBounds)
    (huniq : islands.filter (fun i => v ∈ i.1) = [isl]) :
    ((isl.1.card : ℚ) > (total : ℚ) * (2/100) →
      assign_island_weights w bones vg islands total v = w v) ∧
    (∀ target, ¬ ((isl.1.card : ℚ) > (total : ℚ) * (2/100)) →
      find_nearest_bone isl.2.center (get_bone_positions bones) none = some target →
      target ∈ vg →
      assign_island_weights w bones vg islands total v = setWeight (w v) target 1 ∧
      weightOf (setWeight (w v) target 1) target = 1 ∧
      (∀ b, b ≠ target →
        weightOf (setWeight (w v) target 1) b = weightOf (w v) b)) ∧
    (¬ ((isl.1.card : ℚ) > (total : ℚ) * (2/100)) →
      find_nearest_bone isl.2.center (get_bone_positions bones) none = none →
      assign_island_weights w bones vg islands total v = w v) ∧
    (∀ target, ¬ ((isl.1.card : ℚ) > (total : ℚ) * (2/100)) →
      find_nearest_bone isl.2.center (get_bone_positions bones) none = some target →
      target ∉ vg →
      assign_island_weights w bones vg islands total v = w v) := by
  have hv : v ∈ isl.1 := by
    have hm : isl ∈ islands.filter (fun i => v ∈ i.1) := by
      rw [huniq]
      exact List.mem_cons_self _ _
    simpa using (List.mem_filter.mp hm).2
  have hfold := foldl_processIsland_single islands total
    (get_bone_positions bones) vg w v isl huniq
  refine ⟨?_, ?_, ?_, ?_⟩
  · intro hbig
    rw [assign_island_weights, hfold]
    unfold processIsland
    rw [if_pos hbig]
  · intro target hsmall hnb hvg
    refine ⟨?_, weightOf_setWeight_self _ _ _,
      fun b hb => weightOf_setWeight_ne _ _ _ _ hb⟩
    rw [assign_island_weights, hfold]
    unfold processIsland
    rw [if_neg hsmall, hnb]
    simp [hvg, hv]
  · intro hsmall hnb
    rw [assign_island_weights, hfold]
    unfold processIsland
    rw [if_neg hsmall, hnb]
  · intro target hsmall hnb hvg
    rw [assign_island_weights, hfold]
    unfold processIsland
    rw [if_neg hsmall, hnb]
    simp [hvg]

/-- C2 witness: vertex 0 lies in exactly one island (the singleton {0}) of
the one-island list; the amended reassignment behavior holds there. -/
theorem assign_island_weights_small_island_witness :
    ((({0} : Finset Nat).card : ℚ) > (100 : ℚ) * (2/100) →
      assign_island_weights (fun _ => [("spine", 1/2)])
        [("spine", ⟨0,0,10⟩, ⟨0,0,10⟩), ("hand.L", ⟨0,0,1⟩, ⟨0,0,1⟩)]
        ["spine", "hand.L"]
        [({0}, ⟨⟨0,0,0⟩, ⟨0,0,0⟩, ⟨0,0,0⟩, ⟨0,0,0⟩, 0⟩)] 100 0
        = (fun _ => [("spine", (1:ℚ)/2)]) 0) ∧
    (∀ target, ¬ ((({0} : Finset Nat).card : ℚ) > (100 : ℚ) * (2/100)) →
      find_nearest_bone
          (⟨⟨0,0,0⟩, ⟨0,0,0⟩, ⟨0,0,0⟩, ⟨0,0,0⟩, 0⟩ : IslandBounds).center
          (get_bone_positions
            [("spine", ⟨0,0,10⟩, ⟨0,0,10⟩), ("hand.L", ⟨0,0,1⟩, ⟨0,0,1⟩)])
          none = some target →
      target ∈ ["spine", "hand.L"] →
      assign_island_weights (fun _ => [("spine", 1/2)])
        [("spine", ⟨0,0,10⟩, ⟨0,0,10⟩), ("hand.L", ⟨0,0,1⟩, ⟨0,0,1⟩)]
        ["spine", "hand.L"]
        [({0}, ⟨⟨0,0,0⟩, ⟨0,0,0⟩, ⟨0,0,0⟩, ⟨0,0,0⟩, 0⟩)] 100 0
        = setWeight ((fun _ => [("spine", (1:ℚ)/2)]) 0) target 1 ∧
      weightOf (setWeight ((fun _ => [("spine", (1:ℚ)/2)]) 0) target 1) target = 1 ∧
      (∀ b, b ≠ target →
        weightOf (setWeight ((fun _ => [("spine", (1:ℚ)/2)]) 0) target 1) b
          = weightOf ((fun _ => [("spine", (1:ℚ)/2)]) 0) b)) ∧
    (¬ ((({0} : Finset Nat).card : ℚ) > (100 : ℚ) * (2/100)) →
      find_nearest_bone
          (⟨⟨0,0,0⟩, ⟨0,0,0⟩, ⟨0,0,0⟩, ⟨0,0,0⟩, 0⟩ : IslandBounds).center
          (get_bone_positions
            [("spine", ⟨0,0,10⟩, ⟨0,0,10⟩), ("hand.L", ⟨0,0,1⟩, ⟨0,0,1⟩)])
          none = none →
      assign_island_weights (fun _ => [("spine", 1/2)])
        [("spine", ⟨0,0,10⟩, ⟨0,0,10⟩), ("hand.L", ⟨0,0,1⟩, ⟨0,0,1⟩)]
        ["spine", "hand.L"]
        [({0}, ⟨⟨0,0,0⟩, ⟨0,0,0⟩, ⟨0,0,0⟩, ⟨0,0,0⟩, 0⟩)] 100 0
        = (fun _ => [("spine", (1:ℚ)/2)]) 0) ∧
    (∀ target, ¬ ((({0} : Finset Nat).card : ℚ) > (100 : ℚ) * (2/100)) →
      find_nearest_bone
          (⟨⟨0,0,0⟩, ⟨0,0,0⟩, ⟨0,0,0⟩, ⟨0,0,0⟩, 0⟩ : IslandBounds).center
          (get_bone_positions
            [("spine", ⟨0,0,10⟩, ⟨0,0,10⟩), ("hand.L", ⟨0,0,1⟩, ⟨0,0,1⟩)])
          none = some target →
      target ∉ ["spine", "hand.L"] →
      assign_island_weights (fun _ => [("spine", 1/2)])
        [("spine", ⟨0,0,10⟩, ⟨0,0,10⟩), ("hand.L", ⟨0,0,1⟩, ⟨0,0,1⟩)]
        ["spine", "hand.L"]
        [({0}, ⟨⟨0,0,0⟩, ⟨0,0,0⟩, ⟨0,0,0⟩, ⟨0,0,0⟩, 0⟩)] 100 0
        = (fun _ => [("spine", (1:ℚ)/2)]) 0) :=
  assign_island_weights_small_island (fun _ => [("spine", 1/2)])
    [("spine", ⟨0,0,10⟩, ⟨0,0,10⟩), ("hand.L", ⟨0,0,1⟩, ⟨0,0,1⟩)]
    ["spine", "hand.L"]
    [({0}, ⟨⟨0,0,0⟩, ⟨0,0,0⟩, ⟨0,0,0⟩, ⟨0,0,0⟩, 0⟩)] 100 0
    ({0}, ⟨⟨0,0,0⟩, ⟨0,0,0⟩, ⟨0,0,0⟩, ⟨0,0,0⟩, 0⟩)
    (by simp)

/-- C5: the claim says a nearest-bone lookup over an empty bone set must
fail loudly, terminating the weight pass.  The code instead returns `None`
and both callers silently `continue`/skip: `find_nearest_bone` over an
empty bone list evaluates to `none` (no exception), and
`assign_island_weights` with an armature that has no bones leaves every
vertex's weights unchanged.  The tie-break half of the claim does hold:
with two equidistant bones the first in declaration order is picked. -/
theorem find_nearest_bone_empty_silent_skip :
    find_nearest_bone ⟨0,0,0⟩ [] none = none ∧
    (∀ v, assign_island_weights (fun _ => [("spine", 1/2)]) [] ["spine"]
        [({0}, ⟨⟨0,0,0⟩, ⟨0,0,0⟩, ⟨0,0,0⟩, ⟨0,0,0⟩, 0⟩)] 100 v
        = [("spine", 1/2)]) ∧
    distSq ⟨0,0,0⟩ (⟨⟨1,0,0⟩, ⟨1,0,0⟩, ⟨1,0,0⟩⟩ : BonePos).center
      = distSq ⟨0,0,0⟩ (⟨⟨-1,0,0⟩, ⟨-1,0,0⟩, ⟨-1,0,0⟩⟩ : BonePos).center ∧
    find_nearest_bone ⟨0,0,0⟩
      [("a", ⟨⟨1,0,0⟩, ⟨1,0,0⟩, ⟨1,0,0⟩⟩), ("b", ⟨⟨-1,0,0⟩, ⟨-1,0,0⟩, ⟨-1,0,0⟩⟩)]
      none = some "a" := by
  refine ⟨rfl, ?_, by norm_num [distSq], ?_⟩
  · intro v
    norm_num [assign_island_weights, processIsland, find_nearest_bone,
      find_nearest_bone_go, get_bone_positions, skipsBone]
  · norm_num [find_nearest_bone, find_nearest_bone_go, skipsBone, distSq]

/-- C1: the coverage-guarantee pass is absent from the pipeline `main`
runs: on a 1-vertex mesh whose only raw weight is 0.03 (below the 0.05
cleanup threshold), the executed weight stage (island reassignment, then
threshold/cap/normalize; the island is above the 2% threshold so it is
skipped) leaves vertex 0 with total weight 0 < 0.01 — unskinned.  Had
`main` called `ensure_all_vertices_weighted` afterwards, the vertex would
have received weight 1.0 on its nearest bone. -/
theorem main_missing_coverage_pass_leaves_vertex_unskinned :
    main_weight_stage (fun _ => [("spine", 3/100)])
        [("spine", ⟨0,0,1⟩, ⟨0,0,2⟩)] ["spine"]
        [({0}, ⟨⟨0,0,0⟩, ⟨0,0,0⟩, ⟨0,0,0⟩, ⟨0,0,0⟩, 0⟩)] 1 0
      = [("spine", 0)] ∧
    totalWeight (main_weight_stage (fun _ => [("spine", 3/100)])
        [("spine", ⟨0,0,1⟩, ⟨0,0,2⟩)] ["spine"]
        [({0}, ⟨⟨0,0,0⟩, ⟨0,0,0⟩, ⟨0,0,0⟩, ⟨0,0,0⟩, 0⟩)] 1 0) = 0 ∧
    (0 : ℚ) < 1/100 ∧
    ensure_all_vertices_weighted
        (main_weight_stage (fun _ => [("spine", 3/100)])
          [("spine", ⟨0,0,1⟩, ⟨0,0,2⟩)] ["spine"]
          [({0}, ⟨⟨0,0,0⟩, ⟨0,0,0⟩, ⟨0,0,0⟩, ⟨0,0,0⟩, 0⟩)] 1)
        [("spine", ⟨0,0,1⟩, ⟨0,0,2⟩)] ["spine"] (fun _ => ⟨0,0,0⟩) 0
      = [("spine", 1)] ∧
    totalWeight (ensure_all_vertices_weighted
        (main_weight_stage (fun _ => [("spine", 3/100)])
          [("spine", ⟨0,0,1⟩, ⟨0,0,2⟩)] ["spine"]
          [({0}, ⟨⟨0,0,0⟩, ⟨0,0,0⟩, ⟨0,0,0⟩, ⟨0,0,0⟩, 0⟩)] 1)
        [("spine", ⟨0,0,1⟩, ⟨0,0,2⟩)] ["spine"] (fun _ => ⟨0,0,0⟩) 0) = 1 := by
  have h : main_weight_stage (fun _ => [("spine", 3/100)])
      [("spine", ⟨0,0,1⟩, ⟨0,0,2⟩)] ["spine"]
      [({0}, ⟨⟨0,0,0⟩, ⟨0,0,0⟩, ⟨0,0,0⟩, ⟨0,0,0⟩, 0⟩)] 1 0
      = [("spine", 0)] := by
    norm_num [main_weight_stage, assign_island_weights, processIsland,
      clean_vertex, List.insertionSort, List.orderedInsert, wge,
      setFirstWeight, List.filter]
  refine ⟨h, by rw [h]; norm_num [totalWeight], by norm_num, ?_, ?_⟩
  · rw [ensure_all_vertices_weighted, h]
    norm_num [totalWeight, find_nearest_bone, find_nearest_bone_go,
      get_bone_positions, skipsBone, setWeight]
  · rw [ensure_all_vertices_weighted, h]
    norm_num [totalWeight, find_nearest_bone, find_nearest_bone_go,
      get_bone_positions, skipsBone, setWeight]

/-! ### Skeleton builder (`create_simple_armature`, lines 166-259) -/

/-- An edit bone: name, head, tail, and optional parent reference. -/
structure Bone where
  name : String
  head : Vec3
  tail : Vec3
  parent : Option String
deriving DecidableEq, Repr

/-- Source `add_bone(name, head, tail, parent_name)`: append a new edit bone; the
parent reference is set only when a parent name was given and a bone of
that name already exists in the armature. -/
def add_bone (bones : List Bone) (name : String) (head tail : Vec3)
    (parent_name : Option String) : List Bone :=
  bones ++ [⟨name, head, tail,
    match parent_name with
    | none => none
    | some p => if p ∈ bones.map Bone.name then some p else none⟩]

/-- The fixed sequence of `add_bone(name, head, tail, parent)` calls made
by `create_simple_armature`, in source order: spine chain, then arms
left/right proximal-to-distal, then legs left/right, with all positions
proportional to the mesh bounds. -/
def bone_specs (bounds : Bounds) : List (String × Vec3 × Vec3 × Option String) :=
  let center_x := bounds.center.x
  let center_y := bounds.center.y
  let height := bounds.size.z
  let width := bounds.size.x
  let bottom := bounds.bmin.z
  let top := bounds.bmax.z
  let hip_height := bottom + height * (45/100)
  let chest_height := bottom + height * (65/100)
  let shoulder_height := bottom + height * (75/100)
  let neck_height := bottom + height * (82/100)
  let head_height := top
  let knee_height := bottom + height * (25/100)
  let foot_height := bottom
  let hip_width := width * (15/100)
  let shoulder_width := width * (25/100)
  let armSpecs : String → ℚ → List (String × Vec3 × Vec3 × Option String) :=
    fun side sign =>
    let shoulder_x := center_x + sign * shoulder_width * (3/10)
    let hand_x := center_x + sign * shoulder_width * (3/2)
    let elbow_x := center_x + sign * shoulder_width * (9/10)
    [("shoulder." ++ side, ⟨center_x, center_y, shoulder_height⟩,
      ⟨shoulder_x, center_y, shoulder_height⟩, some "chest"),
     ("upper_arm." ++ side, ⟨shoulder_x, center_y, shoulder_height⟩,
      ⟨elbow_x, center_y, shoulder_height - height * (5/100)⟩,
      some ("shoulder." ++ side)),
     ("forearm." ++ side, ⟨elbow_x, center_y, shoulder_height - height * (5/100)⟩,
      ⟨hand_x, center_y, shoulder_height - height * (1/10)⟩,
      some ("upper_arm." ++ side)),
     ("hand." ++ side, ⟨hand_x, center_y, shoulder_height - height * (1/10)⟩,
      ⟨hand_x + sign * width * (1/10), center_y,
        shoulder_height - height * (12/100)⟩,
      some ("forearm." ++ side))]
  let legSpecs : String → ℚ → List (String × Vec3 × Vec3 × Option String) :=
    fun side sign =>
    let hip_x := center_x + sign * hip_width
    [("thigh." ++ side, ⟨hip_x, center_y, hip_height⟩,
      ⟨hip_x, center_y, knee_height⟩, some "root"),
     ("shin." ++ side, ⟨hip_x, center_y, knee_height⟩,
      ⟨hip_x, center_y, foot_height + height * (5/100)⟩,
      some ("thigh." ++ side)),
     ("foot." ++ side, ⟨hip_x, center_y, foot_height + height * (5/100)⟩,
      ⟨hip_x, center_y - width * (1/10), foot_height⟩,
      some ("shin." ++ side))]
  [("root", ⟨center_x, center_y, hip_height⟩,
    ⟨center_x, center_y, hip_height + height * (5/100)⟩, none),
   ("spine", ⟨center_x, center_y, hip_height⟩,
    ⟨center_x, center_y, chest_height⟩, some "root"),
   ("chest", ⟨center_x, center_y, chest_height⟩,
    ⟨center_x, center_y, shoulder_height⟩, some "spine"),
   ("neck", ⟨center_x, center_y, shoulder_height⟩,
    ⟨center_x, center_y, neck_height⟩, some "chest"),
   ("head", ⟨center_x, center_y, neck_height⟩,
    ⟨center_x, center_y, head_height⟩, some "neck")]
  ++ armSpecs "L" (-1) ++ armSpecs "R" 1
  ++ legSpecs "L" (-1) ++ legSpecs "R" 1

/-- Source `create_simple_armature(mesh, bounds)`: run the `add_bone` calls in
order over the initially emptied armature. -/
def create_simple_armature (bounds : Bounds) : List Bone :=
  (bone_specs bounds).foldl
    (fun bs s => add_bone bs s.1 s.2.1 s.2.2.1 s.2.2.2) []

/-- Whether every bone's parent reference (when present) names a bone that
occurs strictly earlier in add order. -/
def tree_ordered (seen : List String) : List (String × Option String) → Bool
  | [] => true
  | b :: rest =>
      match b.2 with
      | none => tree_ordered (seen ++ [b.1]) rest
      | some p => seen.contains p && tree_ordered (seen ++ [b.1]) rest

/-- Parent of a named bone in a (name, parent) list. -/
def parent_of (l : List (String × Option String)) (n : String) : Option String :=
  (l.find? (fun x => x.1 == n)).bind (fun x => x.2)

/-- Walking rootward from a bone reaches a parentless bone within `fuel`
steps (witnesses the absence of parent cycles). -/
def reaches_root (l : List (String × Option String)) : String → Nat → Bool
  | _, 0 => false
  | n, fuel+1 =>
      match parent_of l n with
      | none => true
      | some p => reaches_root l p fuel

/-- The (name, parent) effect of one `add_bone` call: the requested parent
is recorded only when already present among the earlier names. -/
def shape_step (sh : List (String × Option String)) (s : String × Option String) :
    List (String × Option String) :=
  sh ++ [(s.1,
    match s.2 with
    | none => none
    | some p => if p ∈ sh.map Prod.fst then some p else none)]

theorem add_bone_shape (bs : List Bone) (n : String) (h t : Vec3)
    (p : Option String) :
    (add_bone bs n h t p).map (fun b => (b.name, b.parent))
      = shape_step (bs.map (fun b => (b.name, b.parent))) (n, p) := by
  unfold add_bone shape_step
  cases p with
  | none => simp
  | some q =>
      simp only [List.map_append, List.map_cons, List.map_nil]
      have hmm : (bs.map (fun b => (b.name, b.parent))).map Prod.fst
          = bs.map Bone.name := by
        rw [List.map_map]
        rfl
      rw [hmm]

theorem foldl_add_bone_shape (specs : List (String × Vec3 × Vec3 × Option String))
    (bs : List Bone) :
    ((specs.foldl (fun l s => add_bone l s.1 s.2.1 s.2.2.1 s.2.2.2) bs).map
        (fun b => (b.name, b.parent)))
      = specs.foldl (fun sh s => shape_step sh (s.1, s.2.2.2))
          (bs.map (fun b => (b.name, b.parent))) := by
  induction specs generalizing bs with
  | nil => rfl
  | cons sp rest ih => rw [List.foldl_cons, List.foldl_cons, ih, add_bone_shape]

theorem create_simple_armature_shape (bounds : Bounds) :
    (create_simple_armature bounds).map (fun b => (b.name, b.parent)) =
      [("root", none), ("spine", some "root"), ("chest", some "spine"),
       ("neck", some "chest"), ("head", some "neck"),
       ("shoulder.L", some "chest"), ("upper_arm.L", some "shoulder.L"),
       ("forearm.L", some "upper_arm.L"), ("hand.L", some "forearm.L"),
       ("shoulder.R", some "chest"), ("upper_arm.R", some "shoulder.R"),
       ("forearm.R", some "upper_arm.R"), ("hand.R", some "forearm.R"),
       ("thigh.L", some "root"), ("shin.L", some "thigh.L"),
       ("foot.L", some "shin.L"), ("thigh.R", some "root"),
       ("shin.R", some "thigh.R"), ("foot.R", some "shin.R")] := by
  rw [create_simple_armature, foldl_add_bone_shape]
  rw [← List.foldl_map (fun s : String × Vec3 × Vec3 × Option String => (s.1, s.2.2.2))
    (fun sh s => shape_step sh s)]
  have hspec : (bone_specs bounds).map
      (fun s : String × Vec3 × Vec3 × Option String => (s.1, s.2.2.2)) =
      [("root", none), ("spine", some "root"), ("chest", some "spine"),
       ("neck", some "chest"), ("head", some "neck"),
       ("shoulder.L", some "chest"), ("upper_arm.L", some "shoulder.L"),
       ("forearm.L", some "upper_arm.L"), ("hand.L", some "forearm.L"),
       ("shoulder.R", some "chest"), ("upper_arm.R", some "shoulder.R"),
       ("forearm.R", some "upper_arm.R"), ("hand.R", some "forearm.R"),
       ("thigh.L", some "root"), ("shin.L", some "thigh.L"),
       ("foot.L", some "shin.L"), ("thigh.R", some "root"),
       ("shin.R", some "thigh.R"), ("foot.R", some "shin.R")] := rfl
  rw [hspec]
  decide

/-- C6: for every bounds, the skeleton built by `create_simple_armature`
is a tree: its first bone "root" is the unique parentless bone, bone names
are distinct, every other bone's recorded parent occurs strictly earlier
in add order (spine chain before limbs, limbs proximal-to-distal), and
walking rootward from any bone terminates within 19 steps (no parent
cycles). -/
theorem create_simple_armature_is_tree (bounds : Bounds) :
    (((create_simple_armature bounds).map (fun b => (b.name, b.parent))).filter
        (fun x => x.2 = none)).length = 1 ∧
    ((create_simple_armature bounds).map
        (fun b => (b.name, b.parent))).head? = some ("root", none) ∧
    ((create_simple_armature bounds).map Bone.name).Nodup ∧
    tree_ordered []
      ((create_simple_armature bounds).map (fun b => (b.name, b.parent))) = true ∧
    ((create_simple_armature bounds).map (fun b => (b.name, b.parent))).all
      (fun b => reaches_root
        ((create_simple_armature bounds).map (fun b => (b.name, b.parent)))
        b.1 19) = true := by
  have hsh := create_simple_armature_shape bounds
  have hnames : (create_simple_armature bounds).map Bone.name
      = ((create_simple_armature bounds).map
          (fun b => (b.name, b.parent))).map Prod.fst := by
    rw [List.map_map]
    rfl
  refine ⟨?_, ?_, ?_, ?_, ?_⟩
  · rw [hsh]
    decide
  · rw [hsh]
    decide
  · rw [hnames, hsh]
    decide
  · rw [hsh]
    decide
  · rw [hsh]
    decide

/-! ### Walk-cycle synthesizer (`create_walk_cycle`, lines 417-497)

Rotation values are `math.radians(d)` = `d·π/180`; they are embedded as
the rational coefficient `d/180` of `π` (an injective odd linear map, so
keyframe equality and exact negation are preserved).  Locations are plain
units. -/

/-- A keyed channel of a pose bone. -/
inductive Channel
  | rotation
  | location
deriving DecidableEq, Repr

/-- One keyframe insertion performed by `set_keyframe`. -/
structure Key where
  bone : String
  frame : Nat
  channel : Channel
  value : Vec3
deriving DecidableEq, Repr

/-- Python `math.radians(30)` in π-units. -/
def leg_swing : ℚ := 30/180

/-- Python `math.radians(15)` in π-units. -/
def leg_lift : ℚ := 15/180

/-- Python `math.radians(20)` in π-units. -/
def arm_swing : ℚ := 20/180

/-- Vertical root bob amplitude (plain units). -/
def body_bob : ℚ := 2/100

/-- The `set_keyframe` requests issued for one schedule entry of phase
`i % 4`, in call order: root bob, then the phase's leg keys, then the
arm keys (the source's dead `phase in [0, 4]` test included verbatim). -/
def phase_ops (phase : Nat) : List (String × Channel × Vec3) :=
  (if phase = 1 ∨ phase = 3 then
    [("root", (Channel.location, ⟨0, 0, body_bob⟩))]
   else
    [("root", (Channel.location, ⟨0, 0, -body_bob⟩))]) ++
  (if phase = 0 then
    [("thigh.L", (Channel.rotation, ⟨leg_swing, 0, 0⟩)),
     ("thigh.R", (Channel.rotation, ⟨-leg_swing, 0, 0⟩)),
     ("shin.L", (Channel.rotation, ⟨0, 0, 0⟩)),
     ("shin.R", (Channel.rotation, ⟨leg_lift, 0, 0⟩))]
   else if phase = 1 then
    [("thigh.L", (Channel.rotation, ⟨0, 0, 0⟩)),
     ("thigh.R", (Channel.rotation, ⟨0, 0, 0⟩)),
     ("shin.L", (Channel.rotation, ⟨leg_lift * 2, 0, 0⟩)),
     ("shin.R", (Channel.rotation, ⟨0, 0, 0⟩))]
   else if phase = 2 then
    [("thigh.L", (Channel.rotation, ⟨-leg_swing, 0, 0⟩)),
     ("thigh.R", (Channel.rotation, ⟨leg_swing, 0, 0⟩)),
     ("shin.L", (Channel.rotation, ⟨leg_lift, 0, 0⟩)),
     ("shin.R", (Channel.rotation, ⟨0, 0, 0⟩))]
   else if phase = 3 then
    [("thigh.L", (Channel.rotation, ⟨0, 0, 0⟩)),
     ("thigh.R", (Channel.rotation, ⟨0, 0, 0⟩)),
     ("shin.L", (Channel.rotation, ⟨0, 0, 0⟩)),
     ("shin.R", (Channel.rotation, ⟨leg_lift * 2, 0, 0⟩))]
   else []) ++
  (if phase = 0 ∨ phase = 4 then
    [("upper_arm.L", (Channel.rotation, ⟨arm_swing, 0, 0⟩)),
     ("upper_arm.R", (Channel.rotation, ⟨-arm_swing, 0, 0⟩))]
   else if phase = 2 then
    [("upper_arm.L", (Channel.rotation, ⟨-arm_swing, 0, 0⟩)),
     ("upper_arm.R", (Channel.rotation, ⟨arm_swing, 0, 0⟩))]
   else
    [("upper_arm.L", (Channel.rotation, ⟨0, 0, 0⟩)),
     ("upper_arm.R", (Channel.rotation, ⟨0, 0, 0⟩))])

/-- The keyframes actually inserted at one schedule frame: `set_keyframe`
silently drops any request whose bone is not among the pose bones. -/
def frame_keys (pose_bones : List String) (frame : Nat) (phase : Nat) :
    List Key :=
  (phase_ops phase).flatMap (fun op =>
    if op.1 ∈ pose_bones then [⟨op.1, frame, op.2.1, op.2.2⟩] else [])

/-- The fixed 5-entry keyframe schedule. -/
def key_frames : List Nat := [1, 7, 13, 19, 24]

/-- A generated clip: inserted keyframes plus the scene frame range. -/
structure WalkClip where
  keys : List Key
  frame_start : Nat
  frame_end : Nat
deriving DecidableEq, Repr

/-- Source `create_walk_cycle(armature, frame_count)`: iterate the schedule with
phase = index mod 4, then set the scene frame range 1..frame_count
(`main` calls it with the default frame_count = 24). -/
def create_walk_cycle (pose_bones : List String) (frame_count : Nat) :
    WalkClip :=
  { keys := (key_frames.enum).flatMap
      (fun e => frame_keys pose_bones e.2 (e.1 % 4)),
    frame_start := 1,
    frame_end := frame_count }

/-- The value keyed on a bone's channel at a frame (each (bone, channel)
is keyed at most once per frame, so the first match is the value). -/
def key_at (keys : List Key) (bone : String) (frame : Nat) (ch : Channel) :
    Option Vec3 :=
  ((keys.filter (fun k => k.bone = bone ∧ k.frame = frame ∧ k.channel = ch)).head?).map
    Key.value

theorem frame_keys_frame (pb : List String) (f ph : Nat) :
    ∀ k ∈ frame_keys pb f ph, k.frame = f := by
  intro k hk
  rcases List.mem_flatMap.mp hk with ⟨op, _, hop⟩
  by_cases h : op.1 ∈ pb
  · rw [if_pos h] at hop
    rcases List.mem_singleton.mp hop with rfl
    rfl
  · rw [if_neg h] at hop
    simp at hop

theorem filter_frame_keys_ne (pb : List String) (f ph fq : Nat) (hne : f ≠ fq)
    (bone : String) (ch : Channel) :
    (frame_keys pb f ph).filter
      (fun k => k.bone = bone ∧ k.frame = fq ∧ k.channel = ch) = [] := by
  rw [List.filter_eq_nil_iff]
  intro k hk
  have hf := frame_keys_frame pb f ph k hk
  simp [hf, hne]

theorem key_at_block (pb : List String) (f : Nat) (bone : String) (ch : Channel)
    (ops : List (String × Channel × Vec3)) :
    ((ops.flatMap (fun op =>
        if op.1 ∈ pb then [(⟨op.1, f, op.2.1, op.2.2⟩ : Key)] else [])).filter
        (fun k => k.bone = bone ∧ k.frame = f ∧ k.channel = ch)).head?.map Key.value
      = ((ops.filter (fun op => op.1 ∈ pb ∧ op.1 = bone ∧ op.2.1 = ch)).head?).map
          (fun op => op.2.2) := by
  induction ops with
  | nil => rfl
  | cons op rest ih =>
      by_cases h1 : op.1 ∈ pb
      · by_cases h2 : op.1 = bone
        · have h1b : bone ∈ pb := h2 ▸ h1
          by_cases h3 : op.2.1 = ch
          · simp [h1, h1b, h2, h3, List.filter_cons]
          · simp [h1, h1b, h2, h3, List.filter_cons] at ih ⊢
            exact ih
        · simp [h1, h2, List.filter_cons] at ih ⊢
          exact ih
      · simp [h1, List.filter_cons] at ih ⊢
        exact ih

theorem key_at_frame_keys (pb : List String) (f ph : Nat) (bone : String)
    (ch : Channel) :
    key_at (frame_keys pb f ph) bone f ch
      = (((phase_ops ph).filter
          (fun op => op.1 ∈ pb ∧ op.1 = bone ∧ op.2.1 = ch)).head?).map
          (fun op => op.2.2) := by
  rw [key_at, frame_keys]
  exact key_at_block pb f bone ch (phase_ops ph)

/-- C7: the walk cycle is seamlessly cyclic — under the schedule
1, 7, 13, 19, 24 with phase = index mod 4, the last frame (24, phase 0)
keys exactly the same rotation and location values as the first frame
(1, phase 0) for every bone and channel, and the clip's frame range is the
schedule's first frame through its last. -/
theorem walk_cycle_loop_seamless (pose_bones : List String) (bone : String)
    (ch : Channel) :
    key_at (create_walk_cycle pose_bones 24).keys bone 24 ch
      = key_at (create_walk_cycle pose_bones 24).keys bone 1 ch ∧
    (create_walk_cycle pose_bones 24).frame_start = 1 ∧
    (create_walk_cycle pose_bones 24).frame_end = 24 ∧
    key_frames.head? = some 1 ∧
    key_frames.getLast? = some 24 := by
  have hkeys : (create_walk_cycle pose_bones 24).keys
      = frame_keys pose_bones 1 0 ++ (frame_keys pose_bones 7 1 ++
        (frame_keys pose_bones 13 2 ++ (frame_keys pose_bones 19 3 ++
          (frame_keys pose_bones 24 0 ++ [])))) := rfl
  refine ⟨?_, rfl, rfl, rfl, rfl⟩
  have h24 : key_at (create_walk_cycle pose_bones 24).keys bone 24 ch
      = key_at (frame_keys pose_bones 24 0) bone 24 ch := by
    rw [hkeys, key_at, List.filter_append, List.filter_append,
      List.filter_append, List.filter_append, List.filter_append,
      filter_frame_keys_ne pose_bones 1 0 24 (by decide) bone ch,
      filter_frame_keys_ne pose_bones 7 1 24 (by decide) bone ch,
      filter_frame_keys_ne pose_bones 13 2 24 (by decide) bone ch,
      filter_frame_keys_ne pose_bones 19 3 24 (by decide) bone ch]
    simp [key_at]
  have h1 : key_at (create_walk_cycle pose_bones 24).keys bone 1 ch
      = key_at (frame_keys pose_bones 1 0) bone 1 ch := by
    rw [hkeys, key_at, List.filter_append, List.filter_append,
      List.filter_append, List.filter_append, List.filter_append,
      filter_frame_keys_ne pose_bones 7 1 1 (by decide) bone ch,
      filter_frame_keys_ne pose_bones 13 2 1 (by decide) bone ch,
      filter_frame_keys_ne pose_bones 19 3 1 (by decide) bone ch,
      filter_frame_keys_ne pose_bones 24 0 1 (by decide) bone ch]
    simp [key_at]
  rw [h24, h1, key_at_frame_keys, key_at_frame_keys]

theorem create_simple_armature_names (bounds : Bounds) :
    (create_simple_armature bounds).map Bone.name =
      ["root", "spine", "chest", "neck", "head",
       "shoulder.L", "upper_arm.L", "forearm.L", "hand.L",
       "shoulder.R", "upper_arm.R", "forearm.R", "hand.R",
       "thigh.L", "shin.L", "foot.L", "thigh.R", "shin.R", "foot.R"] := by
  have hnames : (create_simple_armature bounds).map Bone.name
      = ((create_simple_armature bounds).map
          (fun b => (b.name, b.parent))).map Prod.fst := by
    rw [List.map_map]
    rfl
  rw [hnames, create_simple_armature_shape bounds]
  rfl

/-- C8: mirror symmetry of the walk cycle over the pipeline's own
skeleton: at phase 0 (frame 1) the left thigh is keyed +leg_swing (30°,
i.e. coefficient 30/180 of π) and the right thigh exactly its negation;
at the mirrored phase 2 (frame 13) the signs are exactly swapped; the
upper arms counter-swing with exact negation at those phases; and the
contralateral shin is lifted (leg_lift > 0) during each swing phase while
the other shin stays at zero. -/
theorem walk_cycle_mirror_symmetry (bounds : Bounds) :
    key_at (create_walk_cycle ((create_simple_armature bounds).map Bone.name)
        24).keys "thigh.L" 1 Channel.rotation = some ⟨leg_swing, 0, 0⟩ ∧
    key_at (create_walk_cycle ((create_simple_armature bounds).map Bone.name)
        24).keys "thigh.R" 1 Channel.rotation = some ⟨-leg_swing, 0, 0⟩ ∧
    (key_at (create_walk_cycle ((create_simple_armature bounds).map Bone.name)
        24).keys "thigh.R" 1 Channel.rotation).map (fun v => v.x)
      = (key_at (create_walk_cycle ((create_simple_armature bounds).map Bone.name)
        24).keys "thigh.L" 1 Channel.rotation).map (fun v => -v.x) ∧
    key_at (create_walk_cycle ((create_simple_armature bounds).map Bone.name)
        24).keys "thigh.L" 13 Channel.rotation = some ⟨-leg_swing, 0, 0⟩ ∧
    key_at (create_walk_cycle ((create_simple_armature bounds).map Bone.name)
        24).keys "thigh.R" 13 Channel.rotation = some ⟨leg_swing, 0, 0⟩ ∧
    (key_at (create_walk_cycle ((create_simple_armature bounds).map Bone.name)
        24).keys "thigh.L" 13 Channel.rotation).map (fun v => v.x)
      = (key_at (create_walk_cycle ((create_simple_armature bounds).map Bone.name)
        24).keys "thigh.R" 13 Channel.rotation).map (fun v => -v.x) ∧
    key_at (create_walk_cycle ((create_simple_armature bounds).map Bone.name)
        24).keys "upper_arm.L" 1 Channel.rotation = some ⟨arm_swing, 0, 0⟩ ∧
    key_at (create_walk_cycle ((create_simple_armature bounds).map Bone.name)
        24).keys "upper_arm.R" 1 Channel.rotation = some ⟨-arm_swing, 0, 0⟩ ∧
    key_at (create_walk_cycle ((create_simple_armature bounds).map Bone.name)
        24).keys "upper_arm.L" 13 Channel.rotation = some ⟨-arm_swing, 0, 0⟩ ∧
    key_at (create_walk_cycle ((create_simple_armature bounds).map Bone.name)
        24).keys "upper_arm.R" 13 Channel.rotation = some ⟨arm_swing, 0, 0⟩ ∧
    key_at (create_walk_cycle ((create_simple_armature bounds).map Bone.name)
        24).keys "shin.R" 1 Channel.rotation = some ⟨leg_lift, 0, 0⟩ ∧
    key_at (create_walk_cycle ((create_simple_armature bounds).map Bone.name)
        24).keys "shin.L" 1 Channel.rotation = some ⟨0, 0, 0⟩ ∧
    key_at (create_walk_cycle ((create_simple_armature bounds).map Bone.name)
        24).keys "shin.L" 13 Channel.rotation = some ⟨leg_lift, 0, 0⟩ ∧
    key_at (create_walk_cycle ((create_simple_armature bounds).map Bone.name)
        24).keys "shin.R" 13 Channel.rotation = some ⟨0, 0, 0⟩ ∧
    (0 : ℚ) < leg_lift := by
  rw [create_simple_armature_names bounds]
  exact ⟨rfl, rfl, rfl, rfl, rfl, rfl, rfl, rfl, rfl, rfl, rfl, rfl, rfl, rfl,
    by norm_num [leg_lift]⟩

/-! ### Mesh islands (`find_mesh_islands`, lines 61-122)

The flood fill (`while queue: ...`) from a start vertex collects exactly
the vertices reachable from it in the undirected edge-adjacency graph; it
is embedded as frontier expansion iterated enough times to reach the fixed
point (each pre-fixpoint step adds at least one of the finitely many
candidate vertices). -/

/-- A mesh as the island detector sees it: vertex count, edge list
(vertex-index pairs) and world-space vertex positions. -/
structure Mesh where
  nverts : Nat
  edges : List (Nat × Nat)
  pos : Nat → Vec3

/-- Undirected adjacency built from the edge loop (both directions). -/
def adjacent (edges : List (Nat × Nat)) (u v : Nat) : Prop :=
  (u, v) ∈ edges ∨ (v, u) ∈ edges

instance (edges : List (Nat × Nat)) (u v : Nat) :
    Decidable (adjacent edges u v) := by
  unfold adjacent
  infer_instance

theorem adjacent_symm (edges : List (Nat × Nat)) (u v : Nat)
    (h : adjacent edges u v) : adjacent edges v u := h.symm

/-- All vertices mentioned by some edge. -/
def edge_verts (edges : List (Nat × Nat)) : Finset Nat :=
  edges.foldr (fun e s => insert e.1 (insert e.2 s)) ∅

theorem mem_edge_verts_of_adjacent (edges : List (Nat × Nat)) (u v : Nat)
    (h : adjacent edges u v) : v ∈ edge_verts edges := by
  induction edges with
  | nil => rcases h with h | h <;> simp at h
  | cons e rest ih =>
      rcases h with h | h
      · rcases List.mem_cons.mp h with h1 | h1
        · rw [← h1]
          simp [edge_verts]
        · have := ih (Or.inl h1)
          simp [edge_verts] at this ⊢
          tauto
      · rcases List.mem_cons.mp h with h1 | h1
        · rw [← h1]
          simp [edge_verts]
        · have := ih (Or.inr h1)
          simp [edge_verts] at this ⊢
          tauto

/-- The candidate vertex universe the flood fill can ever touch. -/
def cand (n : Nat) (edges : List (Nat × Nat)) : Finset Nat :=
  Finset.range n ∪ edge_verts edges

/-- One frontier expansion of the flood fill. -/
def flood_step (n : Nat) (edges : List (Nat × Nat)) (S : Finset Nat) :
    Finset Nat :=
  S ∪ (cand n edges).filter (fun v => ∃ u ∈ S, adjacent edges u v)

/-- The island of `start`: the flood fill's fixed point. -/
def flood_fill (n : Nat) (edges : List (Nat × Nat)) (start : Nat) :
    Finset Nat :=
  (flood_step n edges)^[(cand n edges).card] {start}

theorem subset_flood_step (n : Nat) (edges : List (Nat × Nat))
    (S : Finset Nat) : S ⊆ flood_step n edges S :=
  Finset.subset_union_left

theorem flood_step_subset (n : Nat) (edges : List (Nat × Nat))
    (S : Finset Nat) : flood_step n edges S ⊆ S ∪ cand n edges :=
  Finset.union_subset_union_right (Finset.filter_subset _ _)

theorem iterate_subset_insert_cand (n : Nat) (edges : List (Nat × Nat))
    (start : Nat) (k : Nat) :
    (flood_step n edges)^[k] {start} ⊆ insert start (cand n edges) := by
  induction k with
  | zero => simp
  | succ k ih =>
      rw [Function.iterate_succ_apply']
      refine subset_trans (flood_step_subset n edges _) ?_
      refine Finset.union_subset ih ?_
      intro x hx
      exact Finset.mem_insert_of_mem hx

theorem mem_start_iterate (n : Nat) (edges : List (Nat × Nat))
    (start : Nat) (k : Nat) :
    start ∈ (flood_step n edges)^[k] {start} := by
  induction k with
  | zero => simp
  | succ k ih =>
      rw [Function.iterate_succ_apply']
      exact subset_flood_step n edges _ ih

theorem start_mem_flood_fill (n : Nat) (edges : List (Nat × Nat))
    (start : Nat) : start ∈ flood_fill n edges start :=
  mem_start_iterate n edges start _

theorem flood_fill_fixpoint (n : Nat) (edges : List (Nat × Nat)) (start : Nat) :
    flood_step n edges (flood_fill n edges start)
      = flood_fill n edges start := by
  have hex : ∃ k, k ≤ (cand n edges).card ∧
      (flood_step n edges)^[k + 1] {start}
        = (flood_step n edges)^[k] {start} := by
    by_contra hno
    push_neg at hno
    have hgrow : ∀ k, k ≤ (cand n edges).card →
        k + 1 ≤ ((flood_step n edges)^[k] ({start} : Finset Nat)).card := by
      intro k
      induction k with
      | zero => simp
      | succ k ih =>
          intro hk1
          have hk : k ≤ (cand n edges).card := Nat.le_of_succ_le hk1
          have h1 := ih hk
          have hsub : (flood_step n edges)^[k] ({start} : Finset Nat)
              ⊆ (flood_step n edges)^[k + 1] {start} := by
            rw [Function.iterate_succ_apply']
            exact subset_flood_step n edges _
          have hne := hno k hk
          have hss : (flood_step n edges)^[k] ({start} : Finset Nat)
              ⊂ (flood_step n edges)^[k + 1] {start} :=
            ssubset_of_subset_of_ne hsub (fun h => hne h.symm)
          have := Finset.card_lt_card hss
          omega
    have hcard := hgrow (cand n edges).card le_rfl
    have hsub := iterate_subset_insert_cand n edges start (cand n edges).card
    have hle : ((flood_step n edges)^[(cand n edges).card]
        ({start} : Finset Nat)).card ≤ (insert start (cand n edges)).card :=
      Finset.card_le_card hsub
    have hins := Finset.card_insert_le start (cand n edges)
    have hequ : (flood_step n edges)^[(cand n edges).card] ({start} : Finset Nat)
        = insert start (cand n edges) :=
      Finset.eq_of_subset_of_card_le hsub (by omega)
    have hfixU : flood_step n edges (insert start (cand n edges))
        = insert start (cand n edges) := by
      apply Finset.Subset.antisymm
      · refine subset_trans (flood_step_subset n edges _) ?_
        refine Finset.union_subset (subset_refl _) ?_
        intro x hx
        exact Finset.mem_insert_of_mem hx
      · exact subset_flood_step n edges _
    have := hno (cand n edges).card le_rfl
    rw [Function.iterate_succ_apply', hequ, hfixU] at this
    exact this rfl
  obtain ⟨k, hk, hfix⟩ := hex
  have hstepfix : flood_step n edges ((flood_step n edges)^[k] {start})
      = (flood_step n edges)^[k] {start} := by
    have h2 := Function.iterate_succ_apply' (flood_step n edges) k
      ({start} : Finset Nat)
    rw [← h2]
    exact hfix
  have hstable : (flood_step n edges)^[(cand n edges).card] ({start} : Finset Nat)
      = (flood_step n edges)^[k] {start} := by
    rcases Nat.exists_eq_add_of_le hk with ⟨j, hj⟩
    rw [hj, Nat.add_comm, Function.iterate_add_apply]
    exact Function.iterate_fixed hstepfix j
  rw [flood_fill, hstable, hstepfix]

theorem flood_fill_closed (n : Nat) (edges : List (Nat × Nat)) (start u v : Nat)
    (hu : u ∈ flood_fill n edges start) (hadj : adjacent edges u v) :
    v ∈ flood_fill n edges start := by
  have hfix := flood_fill_fixpoint n edges start
  rw [← hfix]
  apply Finset.mem_union_right
  refine Finset.mem_filter.mpr ⟨?_, ⟨u, hu, hadj⟩⟩
  exact Finset.mem_union_right _ (mem_edge_verts_of_adjacent edges u v hadj)

theorem flood_fill_trans (n : Nat) (edges : List (Nat × Nat)) (s t : Nat)
    (ht : t ∈ flood_fill n edges s) :
    flood_fill n edges t ⊆ flood_fill n edges s := by
  rw [flood_fill]
  generalize (cand n edges).card = m
  induction m with
  | zero => simpa using ht
  | succ m ih =>
      rw [Function.iterate_succ_apply']
      intro x hx
      rcases Finset.mem_union.mp hx with hx | hx
      · exact ih hx
      · rcases Finset.mem_filter.mp hx with ⟨_, u, hu, hadj⟩
        exact flood_fill_closed n edges s u x (ih hu) hadj

theorem flood_fill_symm_aux (n : Nat) (edges : List (Nat × Nat)) (s : Nat) :
    ∀ k t, t ∈ (flood_step n edges)^[k] ({s} : Finset Nat) →
      s ∈ flood_fill n edges t := by
  intro k
  induction k with
  | zero =>
      intro t ht
      simp at ht
      subst ht
      exact start_mem_flood_fill n edges t
  | succ k ih =>
      intro t ht
      rw [Function.iterate_succ_apply'] at ht
      rcases Finset.mem_union.mp ht with ht | ht
      · exact ih t ht
      · rcases Finset.mem_filter.mp ht with ⟨_, u, hu, hadj⟩
        have hsu := ih u hu
        have hut : u ∈ flood_fill n edges t :=
          flood_fill_closed n edges t t u (start_mem_flood_fill n edges t)
            (adjacent_symm edges u t hadj)
        exact flood_fill_trans n edges t u hut hsu

theorem flood_fill_symm (n : Nat) (edges : List (Nat × Nat)) (s t : Nat)
    (ht : t ∈ flood_fill n edges s) : s ∈ flood_fill n edges t :=
  flood_fill_symm_aux n edges s (cand n edges).card t ht

/-- The outer loop of `find_mesh_islands`: visit vertices in index order,
flood-filling one island from each not-yet-visited vertex and marking all
its vertices visited. -/
def islands_loop (n : Nat) (edges : List (Nat × Nat)) :
    List Nat → Finset Nat → List (Finset Nat)
  | [], _ => []
  | v :: rest, visited =>
      if v ∈ visited then islands_loop n edges rest visited
      else flood_fill n edges v ::
        islands_loop n edges rest (visited ∪ flood_fill n edges v)

/-- The vertex sets of the detected islands, in discovery order. -/
def island_comps (n : Nat) (edges : List (Nat × Nat)) : List (Finset Nat) :=
  islands_loop n edges (List.range n) ∅

theorem islands_loop_mem (n : Nat) (edges : List (Nat × Nat)) :
    ∀ (l : List Nat) (visited : Finset Nat) (c : Finset Nat),
      c ∈ islands_loop n edges l visited →
      ∃ s ∈ l, c = flood_fill n edges s := by
  intro l
  induction l with
  | nil =>
      intro visited c hc
      simp [islands_loop] at hc
  | cons a rest ih =>
      intro visited c hc
      rw [islands_loop] at hc
      by_cases ha : a ∈ visited
      · rw [if_pos ha] at hc
        rcases ih visited c hc with ⟨s, hs, he⟩
        exact ⟨s, List.mem_cons_of_mem _ hs, he⟩
      · rw [if_neg ha] at hc
        rcases List.mem_cons.mp hc with h1 | h1
        · exact ⟨a, List.mem_cons_self _ _, h1⟩
        · rcases ih _ c h1 with ⟨s, hs, he⟩
          exact ⟨s, List.mem_cons_of_mem _ hs, he⟩

theorem islands_loop_cover (n : Nat) (edges : List (Nat × Nat)) :
    ∀ (l : List Nat) (visited : Finset Nat) (v : Nat),
      v ∈ l → v ∉ visited →
      ∃ c ∈ islands_loop n edges l visited, v ∈ c := by
  intro l
  induction l with
  | nil =>
      intro visited v hv
      simp at hv
  | cons a rest ih =>
      intro visited v hv hnv
      rw [islands_loop]
      by_cases ha : a ∈ visited
      · rw [if_pos ha]
        rcases List.mem_cons.mp hv with h1 | h1
        · subst h1
          exact absurd ha hnv
        · exact ih visited v h1 hnv
      · rw [if_neg ha]
        rcases List.mem_cons.mp hv with h1 | h1
        · subst h1
          exact ⟨flood_fill n edges v, List.mem_cons_self _ _,
            start_mem_flood_fill n edges v⟩
        · by_cases hv2 : v ∈ visited ∪ flood_fill n edges a
          · rcases Finset.mem_union.mp hv2 with h2 | h2
            · exact absurd h2 hnv
            · exact ⟨flood_fill n edges a, List.mem_cons_self _ _, h2⟩
          · rcases ih _ v h1 hv2 with ⟨c, hc, hvc⟩
            exact ⟨c, List.mem_cons_of_mem _ hc, hvc⟩

theorem islands_loop_disjoint (n : Nat) (edges : List (Nat × Nat)) :
    ∀ (l : List Nat) (visited : Finset Nat),
      (∀ x ∈ visited, flood_fill n edges x ⊆ visited) →
      List.Pairwise Disjoint (islands_loop n edges l visited) ∧
      ∀ c ∈ islands_loop n edges l visited, Disjoint c visited := by
  intro l
  induction l with
  | nil =>
      intro visited _
      simp [islands_loop]
  | cons a rest ih =>
      intro visited hclosed
      rw [islands_loop]
      by_cases ha : a ∈ visited
      · rw [if_pos ha]
        exact ih visited hclosed
      · rw [if_neg ha]
        have hclosed2 : ∀ x ∈ visited ∪ flood_fill n edges a,
            flood_fill n edges x ⊆ visited ∪ flood_fill n edges a := by
          intro x hx
          rcases Finset.mem_union.mp hx with hx | hx
          · exact subset_trans (hclosed x hx) Finset.subset_union_left
          · exact subset_trans (flood_fill_trans n edges a x hx)
              Finset.subset_union_right
        rcases ih _ hclosed2 with ⟨hpw, hdis⟩
        have hheadvis : Disjoint (flood_fill n edges a) visited := by
          rw [Finset.disjoint_left]
          intro x hxa hxv
          have h1 : flood_fill n edges x ⊆ visited := hclosed x hxv
          have h2 : a ∈ flood_fill n edges x := flood_fill_symm n edges a x hxa
          exact ha (h1 h2)
        refine ⟨List.pairwise_cons.mpr ⟨?_, hpw⟩, ?_⟩
        · intro c hc
          have := hdis c hc
          exact ((Finset.disjoint_union_right.mp this).2).symm
        · intro c hc
          rcases List.mem_cons.mp hc with h1 | h1
          · subst h1
            exact hheadvis
          · exact (Finset.disjoint_union_right.mp (hdis c h1)).1

theorem edge_verts_subset_range (n : Nat) (edges : List (Nat × Nat))
    (hwf : ∀ e ∈ edges, e.1 < n ∧ e.2 < n) :
    edge_verts edges ⊆ Finset.range n := by
  induction edges with
  | nil => simp [edge_verts]
  | cons e rest ih =>
      intro x hx
      simp [edge_verts] at hx
      rcases hx with h | h | h
      · subst h
        exact Finset.mem_range.mpr (hwf e (List.mem_cons_self _ _)).1
      · subst h
        exact Finset.mem_range.mpr (hwf e (List.mem_cons_self _ _)).2
      · exact ih (fun e' he' => hwf e' (List.mem_cons_of_mem _ he'))
          (by simpa [edge_verts] using h)

theorem cand_eq_range (n : Nat) (edges : List (Nat × Nat))
    (hwf : ∀ e ∈ edges, e.1 < n ∧ e.2 < n) :
    cand n edges = Finset.range n := by
  rw [cand, Finset.union_eq_left]
  exact edge_verts_subset_range n edges hwf

theorem flood_fill_subset_range (n : Nat) (edges : List (Nat × Nat)) (s : Nat)
    (hwf : ∀ e ∈ edges, e.1 < n ∧ e.2 < n) (hs : s < n) :
    flood_fill n edges s ⊆ Finset.range n := by
  have h1 := iterate_subset_insert_cand n edges s (cand n edges).card
  have h2 : insert s (cand n edges) = Finset.range n := by
    rw [cand_eq_range n edges hwf]
    exact Finset.insert_eq_self.mpr (Finset.mem_range.mpr hs)
  rw [h2] at h1
  exact h1

/-- Union of a list of islands' vertex sets. -/
def unionF (l : List (Finset Nat)) : Finset Nat :=
  l.foldr (· ∪ ·) ∅

theorem mem_unionF (l : List (Finset Nat)) (x : Nat) :
    x ∈ unionF l ↔ ∃ c ∈ l, x ∈ c := by
  induction l with
  | nil => simp [unionF]
  | cons a rest ih =>
      rw [unionF, List.foldr_cons]
      constructor
      · intro hx
        rcases Finset.mem_union.mp hx with h | h
        · exact ⟨a, List.mem_cons_self _ _, h⟩
        · rcases (ih.mp h) with ⟨c, hc, hxc⟩
          exact ⟨c, List.mem_cons_of_mem _ hc, hxc⟩
      · rintro ⟨c, hc, hxc⟩
        rcases List.mem_cons.mp hc with h | h
        · subst h
          exact Finset.mem_union_left _ hxc
        · exact Finset.mem_union_right _ (ih.mpr ⟨c, h, hxc⟩)

theorem sum_card_of_pairwise_disjoint (l : List (Finset Nat))
    (h : List.Pairwise Disjoint l) :
    (l.map Finset.card).sum = (unionF l).card := by
  induction l with
  | nil => simp [unionF]
  | cons a rest ih =>
      rcases List.pairwise_cons.mp h with ⟨hd, hpw⟩
      have hdu : Disjoint a (unionF rest) := by
        rw [Finset.disjoint_left]
        intro x hxa hxu
        rcases (mem_unionF rest x).mp hxu with ⟨c, hc, hxc⟩
        exact (Finset.disjoint_left.mp (hd c hc)) hxa hxc
      have hru : unionF (a :: rest) = a ∪ unionF rest := rfl
      rw [List.map_cons, List.sum_cons, ih hpw, hru,
        Finset.card_union_of_disjoint hdu]

theorem flood_fill_isolated (n : Nat) (edges : List (Nat × Nat)) (v : Nat)
    (hiso : ∀ e ∈ edges, e.1 ≠ v ∧ e.2 ≠ v) :
    flood_fill n edges v = {v} := by
  have hstep : flood_step n edges {v} = {v} := by
    rw [flood_step]
    have hfil : (cand n edges).filter
        (fun w => ∃ u ∈ ({v} : Finset Nat), adjacent edges u w) = ∅ := by
      rw [Finset.filter_eq_empty_iff]
      intro w _
      rintro ⟨u, hu, hadj⟩
      rcases Finset.mem_singleton.mp hu with rfl
      rcases hadj with h | h
      · exact (hiso _ h).1 rfl
      · exact (hiso _ h).2 rfl
    rw [hfil, Finset.union_empty]
  rw [flood_fill, Function.iterate_fixed hstep]

theorem island_comps_union (n : Nat) (edges : List (Nat × Nat))
    (hwf : ∀ e ∈ edges, e.1 < n ∧ e.2 < n) :
    unionF (island_comps n edges) = Finset.range n := by
  apply Finset.Subset.antisymm
  · intro x hx
    rcases (mem_unionF _ x).mp hx with ⟨c, hc, hxc⟩
    rcases islands_loop_mem n edges (List.range n) ∅ c hc with ⟨s, hs, rfl⟩
    exact flood_fill_subset_range n edges s hwf
      (List.mem_range.mp hs) hxc
  · intro v hv
    rcases islands_loop_cover n edges (List.range n) ∅ v
      (List.mem_range.mpr (Finset.mem_range.mp hv)) (Finset.not_mem_empty v)
      with ⟨c, hc, hvc⟩
    exact (mem_unionF _ v).mpr ⟨c, hc, hvc⟩

theorem island_comps_disjoint (n : Nat) (edges : List (Nat × Nat)) :
    List.Pairwise Disjoint (island_comps n edges) :=
  (islands_loop_disjoint n edges (List.range n) ∅
    (fun x hx => absurd hx (Finset.not_mem_empty x))).1

/-- Smallest element of a list of rationals (`min(...)` over a nonempty
Python generator; 0 for the empty list, which is never hit for an
island). -/
def list_min : List ℚ → ℚ
  | [] => 0
  | a :: t => t.foldl min a

/-- Largest element of a list of rationals. -/
def list_max : List ℚ → ℚ
  | [] => 0
  | a :: t => t.foldl max a

/-- The bounds record computed for one island inside `find_mesh_islands`:
per-axis min/max over the island's vertex positions, center, size, and
volume = product of the box extents (no clamping). -/
def island_bounds (posf : Nat → Vec3) (isl : Finset Nat) : IslandBounds :=
  let ps := (isl.sort (· ≤ ·)).map posf
  let mnx := list_min (ps.map Vec3.x)
  let mny := list_min (ps.map Vec3.y)
  let mnz := list_min (ps.map Vec3.z)
  let mxx := list_max (ps.map Vec3.x)
  let mxy := list_max (ps.map Vec3.y)
  let mxz := list_max (ps.map Vec3.z)
  { bmin := ⟨mnx, mny, mnz⟩,
    bmax := ⟨mxx, mxy, mxz⟩,
    center := ⟨(mnx + mxx) / 2, (mny + mxy) / 2, (mnz + mxz) / 2⟩,
    size := ⟨mxx - mnx, mxy - mny, mxz - mnz⟩,
    volume := (mxx - mnx) * (mxy - mny) * (mxz - mnz) }

/-- Sort key of `islands.sort(key=lambda x: x[1]['volume'], reverse=True)`:
non-increasing volume. -/
def vol_ge (a b : Finset Nat × IslandBounds) : Prop :=
  b.2.volume ≤ a.2.volume

instance : DecidableRel vol_ge :=
  fun a b => inferInstanceAs (Decidable (b.2.volume ≤ a.2.volume))

instance : IsTotal (Finset Nat × IslandBounds) vol_ge :=
  ⟨fun a b => le_total b.2.volume a.2.volume⟩

instance : IsTrans (Finset Nat × IslandBounds) vol_ge :=
  ⟨fun _ _ _ hab hbc => le_trans hbc hab⟩

/-- Source `find_mesh_islands(mesh)`: flood-fill the islands in vertex order,
attach each island's bounds, and sort by volume descending (stable). -/
def find_mesh_islands (m : Mesh) : List (Finset Nat × IslandBounds) :=
  List.insertionSort vol_ge
    ((island_comps m.nverts m.edges).map (fun c => (c, island_bounds m.pos c)))

theorem find_mesh_islands_comps_perm (m : Mesh) :
    ((find_mesh_islands m).map Prod.fst).Perm (island_comps m.nverts m.edges) := by
  have h1 := List.perm_insertionSort vol_ge
    ((island_comps m.nverts m.edges).map (fun c => (c, island_bounds m.pos c)))
  have h2 := h1.map Prod.fst
  rw [List.map_map] at h2
  have h3 : (Prod.fst ∘ fun c => (c, island_bounds m.pos c)) = id := rfl
  rw [h3, List.map_id] at h2
  exact h2

/-- C4: for every well-formed mesh (edges index real vertices), the island
list returned by `find_mesh_islands` partitions the vertex set exactly —
the union of the islands' vertex sets is the full vertex range, islands
are pairwise disjoint, per-island vertex counts sum to the total vertex
count — and the list is sorted by island volume in non-increasing order;
an empty mesh yields an empty island list, and a vertex with no incident
edges only ever appears in the singleton island consisting of itself. -/
theorem find_mesh_islands_partition (m : Mesh)
    (hwf : ∀ e ∈ m.edges, e.1 < m.nverts ∧ e.2 < m.nverts) :
    unionF ((find_mesh_islands m).map Prod.fst) = Finset.range m.nverts ∧
    List.Pairwise Disjoint ((find_mesh_islands m).map Prod.fst) ∧
    (((find_mesh_islands m).map Prod.fst).map Finset.card).sum = m.nverts ∧
    List.Sorted vol_ge (find_mesh_islands m) ∧
    (m.nverts = 0 → find_mesh_islands m = []) ∧
    (∀ v, v < m.nverts → (∀ e ∈ m.edges, e.1 ≠ v ∧ e.2 ≠ v) →
      ∀ c ∈ (find_mesh_islands m).map Prod.fst, v ∈ c → c = {v}) := by
  have hperm := find_mesh_islands_comps_perm m
  have hdisj0 := island_comps_disjoint m.nverts m.edges
  refine ⟨?_, ?_, ?_, ?_, ?_, ?_⟩
  · ext x
    rw [mem_unionF, ← island_comps_union m.nverts m.edges hwf, mem_unionF]
    constructor
    · rintro ⟨c, hc, hx⟩
      exact ⟨c, hperm.subset hc, hx⟩
    · rintro ⟨c, hc, hx⟩
      exact ⟨c, hperm.symm.subset hc, hx⟩
  · exact (hperm.pairwise_iff (fun h => h.symm)).mpr hdisj0
  · have hp2 := (hperm.map Finset.card).sum_eq
    rw [hp2, sum_card_of_pairwise_disjoint _ hdisj0,
      island_comps_union m.nverts m.edges hwf, Finset.card_range]
  · exact List.sorted_insertionSort vol_ge _
  · intro h0
    simp [find_mesh_islands, island_comps, h0, islands_loop]
  · intro v hv hiso c hc hvc
    rcases islands_loop_mem m.nverts m.edges (List.range m.nverts) ∅ c
      (hperm.subset hc) with ⟨s, _, rfl⟩
    have hsv : s ∈ flood_fill m.nverts m.edges v :=
      flood_fill_symm m.nverts m.edges s v hvc
    rw [flood_fill_isolated m.nverts m.edges v hiso] at hsv
    rcases Finset.mem_singleton.mp hsv with rfl
    exact flood_fill_isolated m.nverts m.edges s hiso

/-- C4 witness: the 4-vertex mesh with single edge (0, 1) is well-formed;
its islands partition {0, 1, 2, 3}. -/
theorem find_mesh_islands_partition_witness :
    unionF ((find_mesh_islands ⟨4, [(0, 1)], fun i => ⟨(i : ℚ), 0, 0⟩⟩).map
        Prod.fst) = Finset.range 4 ∧
    List.Pairwise Disjoint
      ((find_mesh_islands ⟨4, [(0, 1)], fun i => ⟨(i : ℚ), 0, 0⟩⟩).map
        Prod.fst) ∧
    (((find_mesh_islands ⟨4, [(0, 1)], fun i => ⟨(i : ℚ), 0, 0⟩⟩).map
        Prod.fst).map Finset.card).sum = 4 ∧
    List.Sorted vol_ge
      (find_mesh_islands ⟨4, [(0, 1)], fun i => ⟨(i : ℚ), 0, 0⟩⟩) ∧
    ((4 : Nat) = 0 →
      find_mesh_islands ⟨4, [(0, 1)], fun i => ⟨(i : ℚ), 0, 0⟩⟩ = []) ∧
    (∀ v, v < 4 → (∀ e ∈ [((0 : Nat), (1 : Nat))], e.1 ≠ v ∧ e.2 ≠ v) →
      ∀ c ∈ (find_mesh_islands ⟨4, [(0, 1)], fun i => ⟨(i : ℚ), 0, 0⟩⟩).map
        Prod.fst, v ∈ c → c = {v}) :=
  find_mesh_islands_partition ⟨4, [(0, 1)], fun i => ⟨(i : ℚ), 0, 0⟩⟩
    (by decide)
